import Mathlib

/-!
Formal model of the minesweeper probability engine

This file gives a shallow embedding, in Lean 4, of the probability engine of
the minesweeper repository (the `ProbabilityCalculator` class, together with
the parts of `MinesweeperBoard` it relies on), and proves properties of the
embedded functions.

Conventions of the embedding:
* JavaScript strings are modelled as `List Char`; the runtime's decimal
  stringification of a natural number (template literals) is modelled by
  `natRepr`, `String.prototype.split` with a one-character separator by
  `splitChar`, and `Number` applied to a decimal digit string by `parseNat`.
* JavaScript `Set`s are modelled as duplicate-free lists in insertion order
  (`addSet`), and plain objects used as string-keyed maps as association
  lists in insertion order (`setEntry` mirrors the update-or-append
  semantics of a property assignment).
* JavaScript numbers holding integers are modelled as `Int` (`Nat` for loop
  indices), and probabilities as `ℚ`.
* In-place mutation is modelled by explicit state passing; the engine's
  `while` loop by a fuel-indexed recursion whose fuel is the source's
  iteration cap.
-/

namespace Minesweeper

/-- Cell identifiers are JS strings, modelled as lists of characters. -/
abbrev Key := List Char

/-- Decimal digits of a natural number, least significant first.  Models the
JS runtime's decimal stringification; fuel-based so that it computes by
structural recursion (fuel `n` is always sufficient for input `n`). -/
def toDigitsRev (fuel : Nat) (n : Nat) : List Char :=
  match fuel with
  | 0 => []
  | fuel + 1 => if n = 0 then [] else Nat.digitChar (n % 10) :: toDigitsRev fuel (n / 10)

/-- Models the JS template-literal rendering of a natural number. -/
def natRepr (n : Nat) : List Char :=
  if n = 0 then ['0'] else (toDigitsRev n n).reverse

/-- Models `Number` applied to a decimal digit string. -/
def parseNat (s : List Char) : Nat :=
  s.foldl (fun acc c => acc * 10 + (c.toNat - '0'.toNat)) 0

/-- Models `String.prototype.split` with a one-character separator. -/
def splitChar (sep : Char) : List Char → List (List Char)
  | [] => [[]]
  | c :: rest =>
    if c = sep then [] :: splitChar sep rest
    else
      match splitChar sep rest with
      | [] => [[c]]
      | g :: gs => (c :: g) :: gs

/-- `MinesweeperBoard.cellKey`: the identifier `` `${row},${col}` ``. -/
def cellKey (row col : Nat) : Key := natRepr row ++ ',' :: natRepr col

/-- The destructuring `const [row, col] = key.split(',').map(Number)` used by
`getDefinitiveCells`.  (On a key with fewer than two components JS would
yield `undefined`; such keys never occur, and the model returns `0` there.) -/
def parseKey (k : Key) : Nat × Nat :=
  match (splitChar ',' k).map parseNat with
  | r :: c :: _ => (r, c)
  | [r] => (r, 0)
  | [] => (0, 0)

/-! ## Board model

The fields of `Cell` and `Board` mirror the interfaces in `engine/types.ts`;
`getCell`, `isValidCell` and `getNeighbors` mirror `MinesweeperBoard`.
`getNeighbors` reads the grid without a null check in the source (a
well-formed board always has the cell); the model drops missing cells. -/

structure Cell where
  row : Nat
  col : Nat
  isMine : Bool
  adjacentMines : Int
  isRevealed : Bool
  isFlagged : Bool
deriving DecidableEq, Inhabited

structure Board where
  rows : Nat
  cols : Nat
  mines : Int
  cells : List (List Cell)
  minesGenerated : Bool
deriving DecidableEq, Inhabited

def isValidCell (b : Board) (row col : Int) : Bool :=
  decide (0 ≤ row) && decide (row < (b.rows : Int)) &&
    decide (0 ≤ col) && decide (col < (b.cols : Int))

/-- The raw grid access `this.board.cells[row][col]`. -/
def cellAt (b : Board) (row col : Nat) : Option Cell :=
  (b.cells[row]?).bind fun r => r[col]?

def getCell (b : Board) (row col : Int) : Option Cell :=
  if isValidCell b row col then cellAt b row.toNat col.toNat else none

def directions : List (Int × Int) :=
  [(-1, -1), (-1, 0), (-1, 1), (0, -1), (0, 1), (1, -1), (1, 0), (1, 1)]

def getNeighbors (b : Board) (row col : Nat) : List Cell :=
  directions.filterMap fun d =>
    let newRow : Int := (row : Int) + d.1
    let newCol : Int := (col : Int) + d.2
    if isValidCell b newRow newCol then cellAt b newRow.toNat newCol.toNat else none

/-- The structural precondition of the engine (spec §7): the grid has the
declared shape and each cell's stored coordinates match its position, as
`initializeBoard` guarantees. -/
def Coherent (b : Board) : Prop :=
  b.cells.length = b.rows ∧
  ∀ i, i < b.cells.length →
    (b.cells.getD i []).length = b.cols ∧
    ∀ j, j < (b.cells.getD i []).length →
      ((b.cells.getD i []).getD j default).row = i ∧
      ((b.cells.getD i []).getD j default).col = j

instance (b : Board) : Decidable (Coherent b) := by
  unfold Coherent; infer_instance

/-! ## Containers

JS `Set`s and plain objects used as maps, as duplicate-free / unique-key
lists in insertion order. -/

def addSet {α : Type} [DecidableEq α] (s : List α) (a : α) : List α :=
  if a ∈ s then s else s ++ [a]

/-- The probability map `result`: an object keyed by cell identifiers. -/
abbrev PMap := List (Key × ℚ)

/-- A property assignment `result[key] = v`: update in place if the key is
present, append otherwise. -/
def setEntry (m : PMap) (k : Key) (v : ℚ) : PMap :=
  if m.any fun p => decide (p.1 = k) then m.map fun p => if p.1 = k then (k, v) else p
  else m ++ [(k, v)]

def lookupEntry (m : PMap) (k : Key) : Option ℚ :=
  (m.find? fun p => decide (p.1 = k)).map (·.2)

/-! ## Constraint extraction (`calculateProbabilities`, first loop) -/

structure Constraint where
  cells : List Key
  mines : Int
deriving DecidableEq, Inhabited

/-- The body of the extraction loop for one position `(row, col)`:
collect the cell into `unrevealedCells` when unrevealed and unflagged, and
push a constraint when the cell is a revealed numeric clue. -/
def scanCell (b : Board) (acc : List Key × List Constraint) (row col : Nat) :
    List Key × List Constraint :=
  match getCell b row col with
  | none => acc
  | some cell =>
    let unrev := if !cell.isRevealed && !cell.isFlagged then addSet acc.1 (cellKey row col) else acc.1
    let cons :=
      if cell.isRevealed ∧ 0 < cell.adjacentMines then
        let neighbors := getNeighbors b row col
        let unknown := neighbors.filter fun n => !n.isRevealed && !n.isFlagged
        let flagged := neighbors.filter fun n => n.isFlagged
        let remainingMines : Int := cell.adjacentMines - flagged.length
        if 0 < unknown.length ∧ 0 ≤ remainingMines then
          acc.2 ++ [⟨unknown.map fun n => cellKey n.row n.col, remainingMines⟩]
        else acc.2
      else acc.2
    (unrev, cons)

def scanBoard (b : Board) : List Key × List Constraint :=
  (List.range b.rows).foldl
    (fun acc row => (List.range b.cols).foldl (fun acc2 col => scanCell b acc2 row col) acc)
    ([], [])

def unrevealedCells (b : Board) : List Key := (scanBoard b).1

/-! ## Propagation loop (`calculateProbabilities`, lines 57–174) -/

structure PState where
  constraints : List Constraint
  knownSafe : List Key
  knownMines : List Key
  changed : Bool
deriving DecidableEq

/-- The per-constraint narrowing loop: drop known-safe cells, drop known-mine
cells decrementing the mine count. -/
def narrowCells (knownSafe knownMines : List Key) (cells : List Key) (mines : Int) :
    List Key × Int :=
  cells.foldl
    (fun acc k =>
      if k ∈ knownSafe then acc
      else if k ∈ knownMines then (acc.1, acc.2 - 1)
      else (acc.1 ++ [k], acc.2))
    ([], mines)

/-- `for (const key of keys) if (!set.has(key)) { set.add(key); changed = true }`. -/
def addAll (s : List Key) (keys : List Key) (changed : Bool) : List Key × Bool :=
  keys.foldl (fun p k => if k ∈ p.1 then p else (p.1 ++ [k], true)) (s, changed)

/-- Narrowing plus the basic deductions for one constraint
(source lines 67–106). State: processed constraints, known sets, changed. -/
def narrowConstraint (s : List Constraint × List Key × List Key × Bool) (c : Constraint) :
    List Constraint × List Key × List Key × Bool :=
  let ks := s.2.1
  let km := s.2.2.1
  let ch := s.2.2.2
  let nc := narrowCells ks km c.cells c.mines
  let minesLeft := max 0 nc.2
  let c' : Constraint := ⟨nc.1, minesLeft⟩
  if nc.1 = [] then (s.1 ++ [c'], ks, km, ch)
  else if minesLeft = 0 then
    let p := addAll ks nc.1 ch
    (s.1 ++ [c'], p.1, km, p.2)
  else if minesLeft = (nc.1.length : Int) then
    let p := addAll km nc.1 ch
    (s.1 ++ [c'], ks, p.1, p.2)
  else (s.1 ++ [c'], ks, km, ch)

def narrowPass (cs : List Constraint) (ks km : List Key) (ch : Bool) :
    List Constraint × List Key × List Key × Bool :=
  cs.foldl narrowConstraint ([], ks, km, ch)

/-- The structural-identity test used to deduplicate derived constraints
(source lines 153–158). -/
def structIdent (dc : Constraint) (cells2 : List Key) (mines2 : Int) : Bool :=
  dc.cells.length == cells2.length && dc.mines == mines2 &&
    dc.cells.all fun c => cells2.contains c

/-- The guarded additions of the subset-analysis immediate deductions:
`if (!target.has(key) && !other.has(key)) { target.add(key); changed = true }`. -/
def addAllGuarded (target other : List Key) (keys : List Key) (changed : Bool) :
    List Key × Bool :=
  keys.foldl (fun p k => if k ∈ p.1 ∨ k ∈ other then p else (p.1 ++ [k], true)) (target, changed)

/-- State of the subset-analysis step: known-safe, known-mine, changed flag,
derived constraints of the current pass. -/
abbrev SubState := List Key × List Key × Bool × List Constraint

/-- Handling of one derived subset-difference constraint (source lines
133–164): immediate deduction when its mine count is `0` or its size,
otherwise deduplicated appending to the pass's derived list. -/
def applyDerived (s : SubState) (difference : List Key) (diffMines : Int) : SubState :=
  if difference ≠ [] ∧ 0 ≤ diffMines then
    if diffMines = 0 then
      let p := addAllGuarded s.1 s.2.1 difference s.2.2.1
      (p.1, s.2.1, p.2, s.2.2.2)
    else if diffMines = (difference.length : Int) then
      let p := addAllGuarded s.2.1 s.1 difference s.2.2.1
      (s.1, p.1, p.2, s.2.2.2)
    else if s.2.2.2.any fun dc => structIdent dc difference diffMines then s
    else (s.1, s.2.1, s.2.2.1, s.2.2.2 ++ [⟨difference, diffMines⟩])
  else s

/-- The body of the subset-analysis double loop for one ordered index pair
`(i, j)` (source lines 118–166). -/
def subsetPair (cs : List Constraint) (s : SubState) (i j : Nat) : SubState :=
  if i = j then s
  else
    let c1 := cs.getD i default
    if c1.cells = [] then s
    else
      let c2 := cs.getD j default
      if c2.cells = [] then s
      else if (c1.cells.all fun k => c2.cells.contains k) ∧ c1.cells.length < c2.cells.length then
        applyDerived s (c2.cells.filter fun k => !c1.cells.contains k) (c2.mines - c1.mines)
      else s

/-- `Math.min(constraints.length, 50)` (source lines 111–112). -/
def maxConstraintsToCompare (cs : List Constraint) : Nat := min cs.length 50

/-- The inner loop of the subset analysis: fixed first index `i`, second
index `j` over the whole list. -/
def subsetOuter (cs : List Constraint) (s : SubState) (i : Nat) : SubState :=
  (List.range cs.length).foldl (fun s2 j => subsetPair cs s2 i j) s

def subsetPhaseFrom (cap : Nat) (cs : List Constraint) (ks km : List Key) (ch : Bool) :
    SubState :=
  (List.range cap).foldl (subsetOuter cs) (ks, km, ch, [])

/-- The subset-analysis step of one propagation pass (source lines 108–167):
only pairs whose first index is below `maxConstraintsToCompare` are examined. -/
def subsetPhase (cs : List Constraint) (ks km : List Key) (ch : Bool) : SubState :=
  subsetPhaseFrom (maxConstraintsToCompare cs) cs ks km ch

/-- Modelled from the spec (§4.2, step 3): the subset-analysis step as the
spec states it, examining every ordered pair of constraints with no cap. -/
def subsetPhaseSpec (cs : List Constraint) (ks km : List Key) (ch : Bool) : SubState :=
  subsetPhaseFrom cs.length cs ks km ch

/-- One iteration of the propagation `while` loop. -/
def propagationPass (s : PState) : PState :=
  let n := narrowPass s.constraints s.knownSafe s.knownMines s.changed
  let sub := subsetPhase n.1 n.2.1 n.2.2.1 n.2.2.2
  if 0 < sub.2.2.2.length then ⟨n.1 ++ sub.2.2.2, sub.1, sub.2.1, true⟩
  else ⟨n.1, sub.1, sub.2.1, sub.2.2.1⟩

def maxIterations : Nat := 100

/-- `while (changed && iterations < maxIterations)`, with the remaining
iteration budget as fuel. -/
def propagationLoop : Nat → PState → PState
  | 0, s => s
  | fuel + 1, s =>
    if s.changed then propagationLoop fuel (propagationPass { s with changed := false }) else s

def initialState (b : Board) : PState := ⟨(scanBoard b).2, [], [], true⟩

def finalState (b : Board) : PState := propagationLoop maxIterations (initialState b)

def activeConstraints (b : Board) : List Constraint :=
  (finalState b).constraints.filter fun c => decide (0 < c.cells.length)

def frontierCells (b : Board) : List Key :=
  (activeConstraints b).foldl
    (fun acc c =>
      c.cells.foldl
        (fun a k =>
          if k ∈ (finalState b).knownSafe ∨ k ∈ (finalState b).knownMines then a else addSet a k)
        acc)
    []

/-! ## Component partitioning (`partitionConstraints`) -/

/-- The recursive `find` with path compression, fuel-indexed (the fuel, the
array length, always suffices on the acyclic parent arrays that occur). -/
def findRoot (p : List Nat) (fuel : Nat) (x : Nat) : List Nat × Nat :=
  match fuel with
  | 0 => (p, x)
  | fuel + 1 =>
    if p.getD x x = x then (p, x)
    else
      let r := findRoot p fuel (p.getD x x)
      (r.1.set x r.2, r.2)

def unionRoots (p : List Nat) (x y : Nat) : List Nat :=
  let fx := findRoot p p.length x
  let fy := findRoot fx.1 fx.1.length y
  if fx.2 ≠ fy.2 then fy.1.set fx.2 fy.2 else fy.1

/-- One step of building `cellToConstraints`. -/
def addIdx (m : List (Key × List Nat)) (k : Key) (i : Nat) : List (Key × List Nat) :=
  if m.any fun p => decide (p.1 = k) then m.map fun p => if p.1 = k then (p.1, p.2 ++ [i]) else p
  else m ++ [(k, [i])]

def buildCellMap (cs : List Constraint) : List (Key × List Nat) :=
  cs.enum.foldl (fun m ic => ic.2.cells.foldl (fun m2 k => addIdx m2 k ic.1) m) []

/-- Union the first index of every cell's constraint list with the others. -/
def unionAll (cellMap : List (Key × List Nat)) (p : List Nat) : List Nat :=
  cellMap.foldl
    (fun q kv =>
      match kv.2 with
      | [] => q
      | i0 :: rest => rest.foldl (fun q2 ik => unionRoots q2 i0 ik) q)
    p

def addGroup (gm : List (Nat × List Constraint)) (root : Nat) (c : Constraint) :
    List (Nat × List Constraint) :=
  if gm.any fun p => decide (p.1 = root) then
    gm.map fun p => if p.1 = root then (p.1, p.2 ++ [c]) else p
  else gm ++ [(root, [c])]

/-- Group constraints by their union-find root (source lines 341–348). -/
def groupByRoot (cs : List Constraint) (p : List Nat) : List (Nat × List Constraint) :=
  (cs.enum.foldl
    (fun (acc : List (Nat × List Constraint) × List Nat) ic =>
      let f := findRoot acc.2 acc.2.length ic.1
      (addGroup acc.1 f.2 ic.2, f.1))
    ([], p)).1

def partitionConstraints (cs : List Constraint) : List (List Constraint) :=
  if cs = [] then []
  else (groupByRoot cs (unionAll (buildCellMap cs) (List.range cs.length))).map (·.2)

def constraintGroups (b : Board) : List (List Constraint) :=
  partitionConstraints (activeConstraints b)

/-! ## Exact solver (`solveConstraints`) -/

/-- The mine list built from a bitmask over the component's cell array. -/
def assignedMines (cells : List Key) (mask : Nat) : List Key :=
  (List.range cells.length).foldl
    (fun ms i => if mask &&& (1 <<< i) ≠ 0 then ms ++ [cells.getD i []] else ms) []

def satisfiesConstraint (mines : List Key) (c : Constraint) : Bool :=
  ((c.cells.filter fun k => mines.contains k).length : Int) == c.mines

/-- A mask is a satisfying mine/no-mine assignment iff every constraint is
satisfied exactly. -/
def satisfiesAll (cells : List Key) (constraints : List Constraint) (mask : Nat) : Bool :=
  constraints.all (satisfiesConstraint (assignedMines cells mask))

def maxSolutions : Nat := 10000

def solveConstraints (cells : List Key) (constraints : List Constraint) : List (List Key) :=
  let maxCombinations := 2 ^ cells.length
  if 1048576 < maxCombinations then []
  else
    (List.range maxCombinations).foldl
      (fun sols mask =>
        if maxSolutions ≤ sols.length then sols
        else
          let mines := assignedMines cells mask
          if constraints.all (satisfiesConstraint mines) then sols ++ [mines] else sols)
      []

/-- All satisfying assignments (as masks) of a component. -/
def satMasks (cells : List Key) (constraints : List Constraint) : List Nat :=
  (List.range (2 ^ cells.length)).filter (satisfiesAll cells constraints)

/-- The `mineCounts` record: one increment per occurrence of the key in each
solution, hence the total occurrence count across solutions. -/
def mineCountIn (solutions : List (List Key)) (k : Key) : Nat :=
  (solutions.map fun s => s.count k).sum

/-- The `groupCells` set of one component. -/
def groupCellsOf (g : List Constraint) : List Key :=
  g.foldl (fun acc c => c.cells.foldl addSet acc) []

/-- `Math.max(0, Math.min(1, q))`. -/
def clamp01 (q : ℚ) : ℚ := max 0 (min 1 q)

/-- Solving one component (source lines 201–258).  In the oversized branch
the `probSum` / `probCount` records accumulate, per key, the sum of
`mines / cells.length` over the group's constraints containing the key and
the number of such constraints; the model computes those totals directly. -/
def processGroup (result : PMap) (g : List Constraint) : PMap :=
  let cellArray := groupCellsOf g
  if 0 < cellArray.length ∧ cellArray.length ≤ 20 then
    let solutions := solveConstraints cellArray g
    if solutions ≠ [] then
      cellArray.foldl
        (fun r k => setEntry r k ((mineCountIn solutions k : ℚ) / (solutions.length : ℚ)))
        result
    else
      cellArray.foldl (fun r k => setEntry r k (1 / 2)) result
  else if 20 < cellArray.length then
    cellArray.foldl
      (fun r k =>
        if lookupEntry r k = none then
          let localSum : ℚ :=
            (g.map fun c =>
              if c.cells.contains k then (c.mines : ℚ) / (c.cells.length : ℚ) else 0).sum
          let localCount : Nat := (g.filter fun c => c.cells.contains k).length
          let average := if 0 < localCount then localSum / (localCount : ℚ) else 1 / 2
          setEntry r k (clamp01 average)
        else r)
      result
  else result

/-! ## The full probability computation -/

def calculateProbabilities (b : Board) (minesRemaining : Int) : PMap :=
  let final := finalState b
  let result1 := final.knownMines.foldl (fun r k => setEntry r k 1)
    (final.knownSafe.foldl (fun r k => setEntry r k 0) [])
  let result2 := (constraintGroups b).foldl processGroup result1
  let minesLeftTotal : Int := max 0 (minesRemaining - final.knownMines.length)
  let expected : ℚ := (frontierCells b).foldl (fun acc k => acc + (lookupEntry result2 k).getD 0) 0
  let nonFrontier := (unrevealedCells b).filter fun k =>
    !((frontierCells b).contains k) && (lookupEntry result2 k).isNone
  let result3 :=
    if nonFrontier ≠ [] then
      let nonFrontierMines : ℚ := max 0 ((minesLeftTotal : ℚ) - expected)
      let nonFrontierProb := nonFrontierMines / (nonFrontier.length : ℚ)
      nonFrontier.foldl (fun r k => setEntry r k (clamp01 nonFrontierProb)) result2
    else result2
  let base : ℚ :=
    if 0 < (unrevealedCells b).length then (minesLeftTotal : ℚ) / ((unrevealedCells b).length : ℚ)
    else 0
  (unrevealedCells b).foldl
    (fun r k => if lookupEntry r k = none then setEntry r k (clamp01 base) else r) result3

/-- `getDefinitiveCells`: the coordinate pairs whose probability is exactly
`0` (safe) respectively exactly `1` (mines). -/
def getDefinitiveCells (b : Board) (minesRemaining : Int) :
    List (Nat × Nat) × List (Nat × Nat) :=
  (calculateProbabilities b minesRemaining).foldl
    (fun acc p =>
      let rc := parseKey p.1
      if p.2 = 0 then (acc.1 ++ [rc], acc.2)
      else if p.2 = 1 then (acc.1, acc.2 ++ [rc])
      else acc)
    ([], [])

/-! ## Claim C3: which ordered pairs the subset derivation examines

The propagation pass examines an ordered pair `(c1, c2)` only when the
index of `c1` is below `Math.min(constraints.length, 50)`, so with more
than 50 constraints some ordered pairs are skipped.  `C3_counterexample`
exhibits a 51-constraint list on which the engine's subset step differs
from the spec's (uncapped) subset step; `C3_subset_derivation_capped`
proves the two steps agree whenever the list has at most 50 constraints. -/

def kA : Key := ['a']

def kB : Key := ['b']

def kC : Key := ['c']

def kD : Key := ['d']

/-- 51 constraints: the strict subset `{a} ⊂ {a, b}` has its smaller
constraint at index 50, so the capped pass never examines the pair. -/
def csC3 : List Constraint :=
  ⟨[kA, kB], 2⟩ :: (List.replicate 49 ⟨[kD], 1⟩ ++ [⟨[kA], 1⟩])

/-! ## Claim C4: deduplication of derived constraints

The dedup check (`derivedExists`) consults only the constraints derived in
the **current** pass's `derivedConstraints` array, never the main constraint
list, so a derived constraint structurally identical to an existing
constraint is appended anyway. -/

/-- Input on which the pass derives `⟨{c, d}, 1⟩` from `{a,b} ⊂ {a,b,c,d}`
even though a structurally identical constraint is already in the list. -/
def csC4 : List Constraint := [⟨[kA, kB, kC, kD], 2⟩, ⟨[kA, kB], 1⟩, ⟨[kC, kD], 1⟩]

/-! ## Claim C5: the known-safe and known-mine sets stay disjoint -/

def DisjointKeys (ks km : List Key) : Prop := ∀ k, k ∈ ks → k ∈ km → False

/-! ## Concrete boards used by witnesses -/

/-- 1 × 3 board: `(0,0)` unrevealed, `(0,1)` a revealed `1`, `(0,2)` flagged;
propagation deduces that `(0,0)` is safe. -/
def bS : Board :=
  ⟨1, 3, 1,
    [[⟨0, 0, false, 0, false, false⟩, ⟨0, 1, false, 1, true, false⟩,
      ⟨0, 2, false, 0, false, true⟩]], true⟩

/-- 1 × 3 board: `(0,0)` and `(0,2)` unrevealed, `(0,1)` a revealed `1`;
the exact solver gives each unknown probability `1/2`. -/
def bP : Board :=
  ⟨1, 3, 1,
    [[⟨0, 0, false, 0, false, false⟩, ⟨0, 1, false, 1, true, false⟩,
      ⟨0, 2, false, 0, false, false⟩]], true⟩

/-- 1 × 1 board with its only cell unrevealed. -/
def bU : Board := ⟨1, 1, 1, [[⟨0, 0, false, 0, false, false⟩]], true⟩

/-- 3 × 3 board whose middle row is unrevealed while `(0,1)` shows `1` and
`(2,1)` shows `2`: the two constraints cover the same three cells with
different mine counts, so their component has zero satisfying assignments. -/
def bZ : Board :=
  ⟨3, 3, 2,
    [[⟨0, 0, false, 0, true, false⟩, ⟨0, 1, false, 1, true, false⟩,
      ⟨0, 2, false, 0, true, false⟩],
     [⟨1, 0, false, 0, false, false⟩, ⟨1, 1, false, 0, false, false⟩,
      ⟨1, 2, false, 0, false, false⟩],
     [⟨2, 0, false, 0, true, false⟩, ⟨2, 1, false, 2, true, false⟩,
      ⟨2, 2, false, 0, true, false⟩]], true⟩

/-! ## Keys flowing through the engine

All key sets of the propagation state, and all keys of the returned map,
are drawn from the constraint cells produced by the scan.  The lemmas are
generic in a predicate `U` on keys so that they serve both the domain claim
(`U k` = `k` is an unrevealed, unflagged cell) and the key-shape claim
(`U k` = `k` is some `cellKey`). -/

def StateKeysIn (U : Key → Prop) (s : PState) : Prop :=
  (∀ c ∈ s.constraints, ∀ k ∈ c.cells, U k) ∧
    (∀ k ∈ s.knownSafe, U k) ∧ ∀ k ∈ s.knownMines, U k

def SubKeysIn (U : Key → Prop) (ss : SubState) : Prop :=
  (∀ k ∈ ss.1, U k) ∧ (∀ k ∈ ss.2.1, U k) ∧ ∀ d ∈ ss.2.2.2, ∀ k ∈ d.cells, U k

def NarrowKeysIn (U : Key → Prop) (ns : List Constraint × List Key × List Key × Bool) : Prop :=
  (∀ c ∈ ns.1, ∀ k ∈ c.cells, U k) ∧ (∀ k ∈ ns.2.1, U k) ∧ ∀ k ∈ ns.2.2.1, U k

/-! ## Claim C8: the union-find partition

Theory of the parent array: following parent pointers, roots, and the
effect of `parent[a] = b`.  `rootD p x` follows parent pointers for
`p.length` steps, which reaches the root on every acyclic parent array. -/

def stepP (p : List Nat) (x : Nat) : Nat := p.getD x x

def iterP (p : List Nat) : Nat → Nat → Nat
  | 0, x => x
  | k + 1, x => iterP p k (stepP p x)

def isRootP (p : List Nat) (x : Nat) : Prop := stepP p x = x

instance (p : List Nat) (x : Nat) : Decidable (isRootP p x) := Nat.decEq _ _

/-- The root of `x`: follow parent pointers `p.length` times. -/
def rootD (p : List Nat) (x : Nat) : Nat := iterP p p.length x

def BndP (p : List Nat) : Prop := ∀ y ∈ p, y < p.length

/-- The invariant of the `parent` array: entries in range and every chain of
parent pointers ends in a fixpoint. -/
def WFP (p : List Nat) : Prop := BndP p ∧ ∀ x, ∃ k, isRootP p (iterP p k x)

/-- Membership of index `i` under key `k` in the cell-to-constraints map. -/
def memIdx (m : List (Key × List Nat)) (k : Key) (i : Nat) : Prop :=
  ∃ e ∈ m, e.1 = k ∧ i ∈ e.2

/-- Membership of constraint `c` under root key `r` in the groups map. -/
def memG (gm : List (Nat × List Constraint)) (r : Nat) (c : Constraint) : Prop :=
  ∃ e ∈ gm, e.1 = r ∧ c ∈ e.2

/-- Two constraints share at least one cell. -/
def sharesCell (c1 c2 : Constraint) : Prop := ∃ k, k ∈ c1.cells ∧ k ∈ c2.cells

/-- Two in-range indices whose constraints share a cell. -/
def shareIdx (cs : List Constraint) (i j : Nat) : Prop :=
  i < cs.length ∧ j < cs.length ∧ sharesCell (cs.getD i default) (cs.getD j default)

/-- Chain relation: both members of the list, sharing a cell. -/
def chainRel (cs : List Constraint) (c1 c2 : Constraint) : Prop :=
  c1 ∈ cs ∧ c2 ∈ cs ∧ sharesCell c1 c2

/-- Connected by a chain of constraints that pairwise share cells. -/
def chainConnected (cs : List Constraint) (c1 c2 : Constraint) : Prop :=
  Relation.ReflTransGen (chainRel cs) c1 c2

def csC8 : List Constraint := [⟨[kA, kB], 1⟩, ⟨[kB, kC], 1⟩]

def gZ : List Constraint :=
  [⟨[cellKey 1 0, cellKey 1 1, cellKey 1 2], 1⟩,
   ⟨[cellKey 1 0, cellKey 1 1, cellKey 1 2], 2⟩]

def gP : List Constraint := [⟨[cellKey 0 0, cellKey 0 2], 1⟩]

/-! ## Theorems -/

lemma digitChar_ne_comma : ∀ d < 10, Nat.digitChar d ≠ ',' := by decide

lemma digitChar_toNat_sub : ∀ d < 10, (Nat.digitChar d).toNat - '0'.toNat = d := by decide

lemma toDigitsRev_ne_comma (fuel n : Nat) : ∀ c ∈ toDigitsRev fuel n, c ≠ ',' := by
  induction fuel generalizing n with
  | zero => intro c hc; simp [toDigitsRev] at hc
  | succ fuel ih =>
    intro c hc
    by_cases hn : n = 0
    · simp [toDigitsRev, hn] at hc
    · simp only [toDigitsRev, if_neg hn, List.mem_cons] at hc
      rcases hc with hc | hc
      · subst hc; exact digitChar_ne_comma _ (Nat.mod_lt _ (by norm_num))
      · exact ih _ c hc

lemma natRepr_ne_comma (n : Nat) : ∀ c ∈ natRepr n, c ≠ ',' := by
  unfold natRepr
  split
  · intro c hc; simp at hc; subst hc; decide
  · intro c hc
    exact toDigitsRev_ne_comma n n c (List.mem_reverse.mp hc)

lemma foldl_toDigitsRev (fuel : Nat) : ∀ n acc : Nat, n ≤ fuel →
    (toDigitsRev fuel n).reverse.foldl (fun a c => a * 10 + (c.toNat - '0'.toNat)) acc
      = acc * 10 ^ (toDigitsRev fuel n).length + n := by
  induction fuel with
  | zero =>
    intro n acc h
    interval_cases n
    simp [toDigitsRev]
  | succ fuel ih =>
    intro n acc h
    by_cases hn : n = 0
    · simp [toDigitsRev, hn]
    · have hdiv : n / 10 ≤ fuel := by
        have h1 : n / 10 < n := Nat.div_lt_self (Nat.pos_of_ne_zero hn) (by norm_num)
        omega
      simp only [toDigitsRev, if_neg hn, List.reverse_cons, List.foldl_append,
        List.foldl_cons, List.foldl_nil, List.length_cons]
      rw [ih (n / 10) acc hdiv]
      rw [digitChar_toNat_sub (n % 10) (Nat.mod_lt _ (by norm_num))]
      rw [pow_succ, ← mul_assoc]
      have hmod := Nat.div_add_mod n 10
      generalize acc * 10 ^ (toDigitsRev fuel (n / 10)).length = A
      omega

theorem parseNat_natRepr (n : Nat) : parseNat (natRepr n) = n := by
  unfold parseNat natRepr
  split
  next h => subst h; decide
  next h =>
    rw [foldl_toDigitsRev n n 0 le_rfl]
    simp

lemma splitChar_ne_nil (sep : Char) (l : List Char) : splitChar sep l ≠ [] := by
  induction l with
  | nil => simp [splitChar]
  | cons c rest ih =>
    simp only [splitChar]
    split
    · simp
    · split
      · simp
      · simp

lemma splitChar_of_not_mem {sep : Char} {l : List Char} (h : sep ∉ l) :
    splitChar sep l = [l] := by
  induction l with
  | nil => rfl
  | cons c rest ih =>
    have hc : c ≠ sep := fun hc => h (hc ▸ List.mem_cons_self c rest)
    have hrest : sep ∉ rest := fun hr => h (List.mem_cons_of_mem _ hr)
    simp only [splitChar, if_neg (by exact fun hh => hc hh)]
    rw [ih hrest]

lemma splitChar_append {sep : Char} {xs ys : List Char} (h : sep ∉ xs) :
    splitChar sep (xs ++ sep :: ys) = xs :: splitChar sep ys := by
  induction xs with
  | nil => simp [splitChar]
  | cons x xs ih =>
    have hx : x ≠ sep := fun hc => h (hc ▸ List.mem_cons_self x xs)
    have hxs : sep ∉ xs := fun hr => h (List.mem_cons_of_mem _ hr)
    simp only [List.cons_append, splitChar, if_neg (by exact fun hh => hx hh)]
    simp only [List.append_eq]
    rw [ih hxs]

theorem parseKey_cellKey (r c : Nat) : parseKey (cellKey r c) = (r, c) := by
  have h1 : ',' ∉ natRepr r := fun hm => natRepr_ne_comma r ',' hm rfl
  have h2 : ',' ∉ natRepr c := fun hm => natRepr_ne_comma c ',' hm rfl
  unfold parseKey cellKey
  rw [splitChar_append h1, splitChar_of_not_mem h2]
  simp [parseNat_natRepr]

/-! ## Generic lemmas about the container model -/

lemma foldl_invariant {α β : Type _} {P : α → Prop} (g : α → β → α) (l : List β) (s : α)
    (h : ∀ a b, b ∈ l → P a → P (g a b)) (hs : P s) : P (l.foldl g s) := by
  induction l generalizing s with
  | nil => exact hs
  | cons a l ih =>
    exact ih (g s a) (fun x b hb hx => h x b (List.mem_cons_of_mem a hb) hx)
      (h s a (List.mem_cons_self a l) hs)

lemma foldl_fixed {α β : Type _} (g : α → β → α) (s : α) (l : List β)
    (h : ∀ b ∈ l, g s b = s) : l.foldl g s = s := by
  induction l with
  | nil => rfl
  | cons a l ih =>
    simp only [List.foldl_cons, h a (List.mem_cons_self a l)]
    exact ih fun b hb => h b (List.mem_cons_of_mem a hb)

lemma mem_addSet {α : Type} [DecidableEq α] {s : List α} {a b : α} :
    b ∈ addSet s a ↔ b ∈ s ∨ b = a := by
  unfold addSet
  split
  next h => exact ⟨Or.inl, fun hb => hb.elim id fun e => e ▸ h⟩
  next h => simp

lemma addSet_nodup {α : Type} [DecidableEq α] {s : List α} (h : s.Nodup) (a : α) :
    (addSet s a).Nodup := by
  unfold addSet
  split
  next ha => exact h
  next ha => simp [List.nodup_append, h, ha]

lemma addSet_subset {α : Type} [DecidableEq α] {s : List α} {a : α} {t : List α}
    (hs : ∀ x ∈ s, x ∈ t) (ha : a ∈ t) : ∀ x ∈ addSet s a, x ∈ t := by
  intro x hx
  rcases mem_addSet.mp hx with hx | hx
  · exact hs x hx
  · exact hx ▸ ha

lemma self_mem_addSet {α : Type} [DecidableEq α] (s : List α) (a : α) : a ∈ addSet s a :=
  mem_addSet.mpr (Or.inr rfl)

lemma subset_addSet {α : Type} [DecidableEq α] (s : List α) (a : α) :
    ∀ x ∈ s, x ∈ addSet s a := fun _ hx => mem_addSet.mpr (Or.inl hx)

/-! Lemmas about `setEntry` / `lookupEntry`. -/

lemma keys_setEntry (m : PMap) (k : Key) (v : ℚ) :
    (setEntry m k v).map Prod.fst =
      if m.any fun p => decide (p.1 = k) then m.map Prod.fst else m.map Prod.fst ++ [k] := by
  unfold setEntry
  split
  next h =>
    simp only [List.map_map]
    congr 1
    funext p
    by_cases hp : p.1 = k
    · simp [Function.comp, hp]
    · simp [Function.comp, hp]
  next h => simp

lemma mem_keys_setEntry {m : PMap} {k k' : Key} {v : ℚ} :
    k' ∈ (setEntry m k v).map Prod.fst ↔ k' ∈ m.map Prod.fst ∨ k' = k := by
  rw [keys_setEntry]
  split
  next h =>
    simp only [List.any_eq_true, decide_eq_true_eq] at h
    rcases h with ⟨p, hp, hpk⟩
    constructor
    · exact Or.inl
    · rintro (hk | rfl)
      · exact hk
      · exact List.mem_map.mpr ⟨p, hp, hpk⟩
  next h => simp

lemma nodup_keys_setEntry {m : PMap} {k : Key} {v : ℚ}
    (h : (m.map Prod.fst).Nodup) : ((setEntry m k v).map Prod.fst).Nodup := by
  rw [keys_setEntry]
  split
  next => exact h
  next hany =>
    simp only [List.any_eq_true, decide_eq_true_eq, not_exists] at hany
    refine h.append (by simp) ?_
    intro a ha hb
    simp only [List.mem_singleton] at hb
    subst hb
    rcases List.mem_map.mp ha with ⟨p, hp, hpk⟩
    exact hany p ⟨hp, hpk⟩

lemma find?_append_of_none {α : Type _} {p : α → Bool} {l1 l2 : List α}
    (h : l1.find? p = none) : (l1 ++ l2).find? p = l2.find? p := by
  induction l1 with
  | nil => rfl
  | cons a l ih =>
    cases hpa : p a
    · rw [List.find?_cons_of_neg _ (by simp [hpa])] at h
      rw [List.cons_append, List.find?_cons_of_neg _ (by simp [hpa])]
      exact ih h
    · rw [List.find?_cons_of_pos _ hpa] at h
      exact absurd h (by simp)

lemma find?_append_of_some {α : Type _} {p : α → Bool} {l1 l2 : List α} {q : α}
    (h : l1.find? p = some q) : (l1 ++ l2).find? p = some q := by
  induction l1 with
  | nil => exact absurd h (by simp)
  | cons a l ih =>
    cases hpa : p a
    · rw [List.find?_cons_of_neg _ (by simp [hpa])] at h
      rw [List.cons_append, List.find?_cons_of_neg _ (by simp [hpa])]
      exact ih h
    · rw [List.find?_cons_of_pos _ hpa] at h
      rw [List.cons_append, List.find?_cons_of_pos _ hpa]
      exact h

lemma lookup_setEntry_self (m : PMap) (k : Key) (v : ℚ) :
    lookupEntry (setEntry m k v) k = some v := by
  unfold setEntry lookupEntry
  split
  next h =>
    simp only [List.any_eq_true, decide_eq_true_eq] at h
    rcases h with ⟨p0, hp0, hp0k⟩
    induction m with
    | nil => cases hp0
    | cons a l ih =>
      by_cases ha : a.1 = k
      · have : (fun p => if p.1 = k then (k, v) else p) a = (k, v) := by simp [ha]
        simp only [List.map_cons, this]
        rw [List.find?_cons_of_pos _ (by simp)]
        rfl
      · have : (fun p => if p.1 = k then (k, v) else p) a = a := by simp [ha]
        simp only [List.map_cons, this]
        rw [List.find?_cons_of_neg _ (by simpa using ha)]
        rcases List.mem_cons.mp hp0 with rfl | hmem
        · exact absurd hp0k ha
        · exact ih hmem
  next h =>
    have hnone : m.find? (fun p => decide (p.1 = k)) = none := by
      simp only [List.any_eq_true, decide_eq_true_eq, not_exists] at h
      rw [List.find?_eq_none]
      intro p hp
      simp only [decide_eq_true_eq]
      exact fun e => h p ⟨hp, e⟩
    rw [find?_append_of_none hnone]
    rw [List.find?_cons_of_pos _ (by simp)]
    rfl

lemma lookup_setEntry_ne {k k' : Key} (m : PMap) (v : ℚ) (h : k' ≠ k) :
    lookupEntry (setEntry m k v) k' = lookupEntry m k' := by
  unfold setEntry lookupEntry
  split
  next hany =>
    clear hany
    congr 1
    induction m with
    | nil => rfl
    | cons a l ih =>
      by_cases ha : a.1 = k
      · have hupd : (fun p => if p.1 = k then (k, v) else p) a = (k, v) := by simp [ha]
        have h1 : (decide ((k, v).1 = k') : Bool) = false :=
          decide_eq_false_iff_not.mpr (Ne.symm h)
        have h2 : (decide (a.1 = k') : Bool) = false :=
          decide_eq_false_iff_not.mpr (ha ▸ Ne.symm h)
        simp only [List.map_cons, hupd, List.find?, h1, h2]
        exact ih
      · have hupd : (fun p => if p.1 = k then (k, v) else p) a = a := by simp [ha]
        simp only [List.map_cons, hupd, List.find?]
        cases hpa : (decide (a.1 = k') : Bool)
        · simp only [hpa]
          exact ih
        · simp only [hpa]
  next hany =>
    cases hf : m.find? fun p => decide (p.1 = k')
    · rw [find?_append_of_none hf]
      rw [List.find?_cons_of_neg _ (by simp [Ne.symm h])]
      simp [hf]
    · rw [find?_append_of_some hf]

lemma lookup_isSome_iff {m : PMap} {k : Key} :
    (lookupEntry m k).isSome = true ↔ k ∈ m.map Prod.fst := by
  unfold lookupEntry
  cases hf : m.find? fun p => decide (p.1 = k)
  · simp only [hf, Option.map_none', Option.isSome_none, Bool.false_eq_true, false_iff]
    rw [List.find?_eq_none] at hf
    intro hk
    rcases List.mem_map.mp hk with ⟨p, hp, hpk⟩
    exact (hf p hp) (by simpa using hpk)
  · next q =>
    simp only [hf, Option.map_some', Option.isSome_some, true_iff]
    have hq := List.find?_some hf
    simp only [decide_eq_true_eq] at hq
    have hqm := List.mem_of_find?_eq_some hf
    exact List.mem_map.mpr ⟨q, hqm, hq⟩

lemma lookup_eq_none_iff {m : PMap} {k : Key} :
    lookupEntry m k = none ↔ k ∉ m.map Prod.fst := by
  rw [← lookup_isSome_iff]
  cases lookupEntry m k <;> simp

lemma values_setEntry {m : PMap} {k : Key} {v : ℚ} {Q : ℚ → Prop}
    (hm : ∀ p ∈ m, Q p.2) (hv : Q v) : ∀ p ∈ setEntry m k v, Q p.2 := by
  unfold setEntry
  split
  next =>
    intro p hp
    rcases List.mem_map.mp hp with ⟨q, hq, rfl⟩
    split
    next => exact hv
    next => exact hm q hq
  next =>
    intro p hp
    rcases List.mem_append.mp hp with hp | hp
    · exact hm p hp
    · simp only [List.mem_singleton] at hp
      subst hp
      exact hv

lemma lookup_mem {m : PMap} {k : Key} {v : ℚ} (h : lookupEntry m k = some v) : (k, v) ∈ m := by
  unfold lookupEntry at h
  cases hf : m.find? fun p => decide (p.1 = k)
  · rw [hf] at h; exact absurd h (by simp)
  · next q =>
    rw [hf] at h
    simp only [Option.map_some', Option.some.injEq] at h
    have hq' := List.find?_some hf
    have hq : q.1 = k := by simpa using hq'
    have hqm := List.mem_of_find?_eq_some hf
    have : q = (k, v) := by
      cases q with
      | mk a b => simp only at hq h; rw [hq, h]
    exact this ▸ hqm

lemma mem_lookup {m : PMap} {k : Key} {v : ℚ} (hnd : (m.map Prod.fst).Nodup)
    (h : (k, v) ∈ m) : lookupEntry m k = some v := by
  unfold lookupEntry
  induction m with
  | nil => exact absurd h (by simp)
  | cons a l ih =>
    simp only [List.map_cons, List.nodup_cons] at hnd
    rcases List.mem_cons.mp h with rfl | hmem
    · rw [List.find?_cons_of_pos _ (by simp)]
      rfl
    · have ha : (decide (a.1 = k) : Bool) = false := by
        simp only [decide_eq_false_iff_not]
        intro e
        exact hnd.1 (e ▸ List.mem_map.mpr ⟨(k, v), hmem, rfl⟩)
      rw [List.find?_cons_of_neg _ (by simp [ha])]
      exact ih hnd.2 hmem

set_option maxRecDepth 100000 in
lemma csC3_outer_fixed :
    ∀ i ∈ List.range 50, subsetOuter csC3 ([], [], false, []) i = ([], [], false, []) := by
  decide

set_option maxRecDepth 100000 in
lemma csC3_outer50 : subsetOuter csC3 ([], [], false, []) 50 = ([], [kB], true, []) := by
  decide

/-- C3 (counterexample): on `csC3` the engine's subset-analysis step does not
process every ordered subset pair — it differs from the spec's uncapped
step, which would derive that `b` is a mine from the skipped pair. -/
theorem C3_counterexample :
    subsetPhase csC3 [] [] false ≠ subsetPhaseSpec csC3 [] [] false := by
  have hlen : csC3.length = 51 := by decide
  have hcap : subsetPhase csC3 [] [] false = ([], [], false, []) := by
    unfold subsetPhase subsetPhaseFrom maxConstraintsToCompare
    rw [hlen]
    show (List.range (min 51 50)).foldl (subsetOuter csC3) ([], [], false, []) = _
    rw [show min 51 50 = 50 from rfl]
    exact foldl_fixed _ _ _ csC3_outer_fixed
  have hspec : subsetPhaseSpec csC3 [] [] false = ([], [kB], true, []) := by
    unfold subsetPhaseSpec subsetPhaseFrom
    rw [hlen]
    show (List.range 51).foldl (subsetOuter csC3) ([], [], false, []) = _
    rw [show List.range 51 = List.range 50 ++ [50] from by decide]
    rw [List.foldl_append]
    rw [foldl_fixed _ _ _ csC3_outer_fixed]
    simp only [List.foldl_cons, List.foldl_nil]
    exact csC3_outer50
  rw [hcap, hspec]
  decide

/-- C3 (amended): in every propagation pass, ordered pairs `(c1, c2)` are
examined for every `c1` whose index is below `min(length, 50)` and every
`c2`; hence when the constraint list has at most 50 constraints no ordered
pair is skipped — the engine's subset step coincides with the spec's
uncapped subset step. -/
theorem C3_subset_derivation_capped (cs : List Constraint) (ks km : List Key) (ch : Bool)
    (h : cs.length ≤ 50) : subsetPhase cs ks km ch = subsetPhaseSpec cs ks km ch := by
  unfold subsetPhase subsetPhaseSpec maxConstraintsToCompare
  rw [min_eq_left h]

/-- C3 (witness): the amended theorem applied to a concrete two-constraint
list. -/
theorem C3_witness :
    [(⟨[kA], 1⟩ : Constraint), ⟨[kA, kB], 2⟩].length ≤ 50 ∧
      subsetPhase [⟨[kA], 1⟩, ⟨[kA, kB], 2⟩] [] [] false =
        subsetPhaseSpec [⟨[kA], 1⟩, ⟨[kA, kB], 2⟩] [] [] false :=
  ⟨by decide, C3_subset_derivation_capped [⟨[kA], 1⟩, ⟨[kA, kB], 2⟩] [] [] false (by decide)⟩

/-- C4 (counterexample): the subset step appends the derived constraint
`⟨{c, d}, 1⟩` although a structurally identical constraint already exists in
the constraint list, and after the pass the list contains that constraint
twice — refuting both halves of the claim. -/
theorem C4_counterexample :
    (∃ d ∈ (subsetPhase csC4 [] [] false).2.2.2, ∃ c ∈ csC4, structIdent c d.cells d.mines = true)
      ∧ (propagationPass ⟨csC4, [], [], false⟩).constraints.count ⟨[kC, kD], 1⟩ = 2 := by
  constructor
  · exact ⟨⟨[kC, kD], 1⟩, by decide, ⟨[kC, kD], 1⟩, by decide, by decide⟩
  · decide

lemma applyDerived_derived (s : SubState) (difference : List Key) (diffMines : Int) :
    (applyDerived s difference diffMines).2.2.2 = s.2.2.2 ∨
      ∃ d : Constraint, (applyDerived s difference diffMines).2.2.2 = s.2.2.2 ++ [d] ∧
        ∀ dc ∈ s.2.2.2, structIdent dc d.cells d.mines = false := by
  unfold applyDerived
  split_ifs with h1 h2 h3 h4 <;> try exact Or.inl rfl
  refine Or.inr ⟨_, rfl, ?_⟩
  intro dc hdc
  rw [Bool.eq_false_iff]
  exact fun he => (List.any_eq_true.not.mp h4) ⟨dc, hdc, he⟩

lemma subsetPair_eq_or_applyDerived (cs : List Constraint) (s : SubState) (i j : Nat) :
    subsetPair cs s i j = s ∨
      ∃ difference diffMines, subsetPair cs s i j = applyDerived s difference diffMines := by
  unfold subsetPair
  dsimp only
  split_ifs <;> first
  | exact Or.inl rfl
  | exact Or.inr ⟨_, _, rfl⟩

lemma subsetPair_derived (cs : List Constraint) (s : SubState) (i j : Nat) :
    (subsetPair cs s i j).2.2.2 = s.2.2.2 ∨
      ∃ d : Constraint, (subsetPair cs s i j).2.2.2 = s.2.2.2 ++ [d] ∧
        ∀ dc ∈ s.2.2.2, structIdent dc d.cells d.mines = false := by
  rcases subsetPair_eq_or_applyDerived cs s i j with h | ⟨diff, dm, h⟩
  · rw [h]; exact Or.inl rfl
  · rw [h]; exact applyDerived_derived s diff dm

lemma subsetPair_pairwise {R : Constraint → Constraint → Prop}
    (hR : ∀ s : SubState, ∀ d : Constraint,
      (∀ dc ∈ s.2.2.2, structIdent dc d.cells d.mines = false) → ∀ a ∈ s.2.2.2, R a d)
    (cs : List Constraint) (s : SubState) (i j : Nat)
    (hs : s.2.2.2.Pairwise R) : ((subsetPair cs s i j).2.2.2).Pairwise R := by
  rcases subsetPair_derived cs s i j with h | ⟨d, hd, hg⟩
  · rw [h]; exact hs
  · rw [hd]
    rw [List.pairwise_append]
    refine ⟨hs, by simp, ?_⟩
    intro a ha b hb
    simp only [List.mem_singleton] at hb
    rw [hb]
    exact hR s d hg a ha

/-- C4 (amended): the deduplication is only against constraints derived
within the same pass; within one pass the derived list never receives two
structurally identical constraints (in the sense of the source's
`derivedExists` check), but the main constraint list may come to contain
structurally identical constraints. -/
theorem C4_pass_local_dedup (cs : List Constraint) (ks km : List Key) (ch : Bool) :
    ((subsetPhase cs ks km ch).2.2.2).Pairwise
      fun a b => structIdent a b.cells b.mines = false := by
  unfold subsetPhase subsetPhaseFrom
  refine @foldl_invariant _ _
    (fun s : SubState => s.2.2.2.Pairwise fun a b => structIdent a b.cells b.mines = false)
    _ _ _ ?_ List.Pairwise.nil
  intro s i _ hinv
  unfold subsetOuter
  refine @foldl_invariant _ _
    (fun s : SubState => s.2.2.2.Pairwise fun a b => structIdent a b.cells b.mines = false)
    _ _ _ ?_ hinv
  intro s2 j _ hinv2
  exact subsetPair_pairwise (fun s d hg a ha => hg a ha) cs s2 i j hinv2

lemma narrowCells_not_mem (ks km cells : List Key) (mines : Int) :
    ∀ x ∈ (narrowCells ks km cells mines).1, x ∉ ks ∧ x ∉ km := by
  unfold narrowCells
  refine @foldl_invariant _ _ (fun acc : List Key × Int => ∀ x ∈ acc.1, x ∉ ks ∧ x ∉ km)
    _ _ _ ?_ (by simp)
  intro acc k _ hinv
  dsimp only
  split_ifs with h1 h2
  · exact hinv
  · exact hinv
  · intro x hx
    rcases List.mem_append.mp hx with hx | hx
    · exact hinv x hx
    · simp only [List.mem_singleton] at hx
      subst hx
      exact ⟨h1, h2⟩

lemma addAll_mem (s keys : List Key) (ch : Bool) :
    ∀ x ∈ (addAll s keys ch).1, x ∈ s ∨ x ∈ keys := by
  unfold addAll
  refine @foldl_invariant _ _ (fun p : List Key × Bool => ∀ x ∈ p.1, x ∈ s ∨ x ∈ keys)
    _ _ _ ?_ (fun x hx => Or.inl hx)
  intro p k hk hinv
  dsimp only
  split_ifs with h1
  · exact hinv
  · intro x hx
    rcases List.mem_append.mp hx with hx | hx
    · exact hinv x hx
    · simp only [List.mem_singleton] at hx
      exact Or.inr (hx ▸ hk)

lemma addAllGuarded_mem (target other keys : List Key) (ch : Bool) :
    ∀ x ∈ (addAllGuarded target other keys ch).1, x ∈ target ∨ (x ∈ keys ∧ x ∉ other) := by
  unfold addAllGuarded
  refine @foldl_invariant _ _
    (fun p : List Key × Bool => ∀ x ∈ p.1, x ∈ target ∨ (x ∈ keys ∧ x ∉ other))
    _ _ _ ?_ (fun x hx => Or.inl hx)
  intro p k hk hinv
  dsimp only
  split_ifs with h1
  · exact hinv
  · intro x hx
    rcases List.mem_append.mp hx with hx | hx
    · exact hinv x hx
    · simp only [List.mem_singleton] at hx
      subst hx
      push_neg at h1
      exact Or.inr ⟨hk, h1.2⟩

lemma narrowConstraint_disjoint (s : List Constraint × List Key × List Key × Bool)
    (c : Constraint) (h : DisjointKeys s.2.1 s.2.2.1) :
    DisjointKeys (narrowConstraint s c).2.1 (narrowConstraint s c).2.2.1 := by
  unfold narrowConstraint
  dsimp only
  split_ifs with h1 h2 h3
  · exact h
  · intro k hk hkm
    rcases addAll_mem _ _ _ k hk with hk' | hk'
    · exact h k hk' hkm
    · exact (narrowCells_not_mem _ _ _ _ k hk').2 hkm
  · intro k hk hkm
    rcases addAll_mem _ _ _ k hkm with hk' | hk'
    · exact h k hk hk'
    · exact (narrowCells_not_mem _ _ _ _ k hk').1 hk
  · exact h

lemma applyDerived_disjoint (s : SubState) (diff : List Key) (dm : Int)
    (h : DisjointKeys s.1 s.2.1) :
    DisjointKeys (applyDerived s diff dm).1 (applyDerived s diff dm).2.1 := by
  unfold applyDerived
  dsimp only
  split_ifs with h1 h2 h3 h4
  · intro k hk hkm
    rcases addAllGuarded_mem _ _ _ _ k hk with hk' | ⟨_, hk2⟩
    · exact h k hk' hkm
    · exact hk2 hkm
  · intro k hk hkm
    rcases addAllGuarded_mem _ _ _ _ k hkm with hk' | ⟨_, hk2⟩
    · exact h k hk hk'
    · exact hk2 hk
  · exact h
  · exact h
  · exact h

lemma narrowPass_disjoint (cs : List Constraint) (ks km : List Key) (ch : Bool)
    (h : DisjointKeys ks km) :
    DisjointKeys (narrowPass cs ks km ch).2.1 (narrowPass cs ks km ch).2.2.1 := by
  unfold narrowPass
  refine @foldl_invariant _ _
    (fun s : List Constraint × List Key × List Key × Bool => DisjointKeys s.2.1 s.2.2.1)
    _ _ _ ?_ h
  intro s c _ hinv
  exact narrowConstraint_disjoint s c hinv

lemma subsetPhase_disjoint (cs : List Constraint) (ks km : List Key) (ch : Bool)
    (h : DisjointKeys ks km) :
    DisjointKeys (subsetPhase cs ks km ch).1 (subsetPhase cs ks km ch).2.1 := by
  unfold subsetPhase subsetPhaseFrom
  refine @foldl_invariant _ _ (fun s : SubState => DisjointKeys s.1 s.2.1) _ _ _ ?_ h
  intro s i _ hinv
  unfold subsetOuter
  refine @foldl_invariant _ _ (fun s : SubState => DisjointKeys s.1 s.2.1) _ _ _ ?_ hinv
  intro s2 j _ hinv2
  rcases subsetPair_eq_or_applyDerived cs s2 i j with he | ⟨diff, dm, he⟩
  · rw [he]; exact hinv2
  · rw [he]; exact applyDerived_disjoint s2 diff dm hinv2

lemma propagationPass_disjoint (s : PState) (h : DisjointKeys s.knownSafe s.knownMines) :
    DisjointKeys (propagationPass s).knownSafe (propagationPass s).knownMines := by
  unfold propagationPass
  dsimp only
  split_ifs with h1
  · exact subsetPhase_disjoint _ _ _ _ (narrowPass_disjoint _ _ _ _ h)
  · exact subsetPhase_disjoint _ _ _ _ (narrowPass_disjoint _ _ _ _ h)

lemma propagationLoop_disjoint (fuel : Nat) (s : PState)
    (h : DisjointKeys s.knownSafe s.knownMines) :
    DisjointKeys (propagationLoop fuel s).knownSafe (propagationLoop fuel s).knownMines := by
  induction fuel generalizing s with
  | zero => exact h
  | succ fuel ih =>
    unfold propagationLoop
    split_ifs with hc
    · exact ih _ (propagationPass_disjoint _ h)
    · exact h

/-- C5: for every input board and every number of loop iterations, the
known-safe set and the known-mine set of the propagation state are
disjoint: no cell identifier is a member of both. -/
theorem C5_known_sets_disjoint (b : Board) (fuel : Nat) :
    ∀ k, k ∈ (propagationLoop fuel (initialState b)).knownSafe →
      k ∉ (propagationLoop fuel (initialState b)).knownMines := by
  intro k hk hm
  refine propagationLoop_disjoint fuel (initialState b) ?_ k hk hm
  intro x hx _
  exact absurd hx (List.not_mem_nil x)

/-- C5 (witness): on `bS` the deduced safe cell is in the known-safe set and
therefore, by the theorem, not in the known-mine set. -/
theorem C5_witness :
    cellKey 0 0 ∈ (propagationLoop maxIterations (initialState bS)).knownSafe ∧
      cellKey 0 0 ∉ (propagationLoop maxIterations (initialState bS)).knownMines :=
  ⟨by decide, C5_known_sets_disjoint bS maxIterations (cellKey 0 0) (by decide)⟩

/-! ## Claim C7: all returned probabilities lie in [0, 1] -/

lemma clamp01_bounds (q : ℚ) : 0 ≤ clamp01 q ∧ clamp01 q ≤ 1 := by
  unfold clamp01
  constructor
  · exact le_max_left 0 _
  · exact max_le (by norm_num) (min_le_left 1 q)

lemma groupCellsOf_nodup (g : List Constraint) : (groupCellsOf g).Nodup := by
  unfold groupCellsOf
  refine @foldl_invariant _ _ (fun acc : List Key => acc.Nodup) _ _ _ ?_ List.Pairwise.nil
  intro acc c _ hinv
  refine @foldl_invariant _ _ (fun acc : List Key => acc.Nodup) _ _ _ ?_ hinv
  intro acc2 k _ hinv2
  exact addSet_nodup hinv2 k

lemma count_le_one_of_nodup {l : List Key} (h : l.Nodup) (a : Key) :
    l.count a ≤ 1 := by
  induction l with
  | nil => simp
  | cons b l ih =>
    rw [List.nodup_cons] at h
    by_cases hba : a = b
    · subst hba
      rw [List.count_cons_self]
      have : l.count a = 0 := List.count_eq_zero.mpr h.1
      omega
    · rw [List.count_cons_of_ne hba]
      exact ih h.2

lemma foldl_range_count (l : List Key) (P : Nat → Prop) [DecidablePred P] (k : Key) :
    ∀ t, t ≤ l.length →
      (((List.range t).foldl (fun ms i => if P i then ms ++ [l.getD i []] else ms) []).count k)
        ≤ (l.take t).count k := by
  intro t
  induction t with
  | zero => simp
  | succ t ih =>
    intro ht
    have ht' : t ≤ l.length := Nat.le_of_succ_le ht
    have htlt : t < l.length := ht
    rw [List.range_succ, List.foldl_append, List.foldl_cons, List.foldl_nil]
    have hgd : l.getD t [] = l[t] := List.getD_eq_getElem l [] htlt
    have htake : l.take (t + 1) = l.take t ++ [l.getD t []] := by
      rw [List.take_succ, List.getElem?_eq_getElem htlt, hgd]
      rfl
    rw [htake, List.count_append]
    split_ifs with hP
    · rw [List.count_append]
      have := ih ht'
      omega
    · have := ih ht'
      have hz : (0 : Nat) ≤ List.count k [l.getD t []] := Nat.zero_le _
      omega

lemma assignedMines_count_le (cells : List Key) (mask : Nat) (k : Key) :
    (assignedMines cells mask).count k ≤ cells.count k := by
  unfold assignedMines
  have := foldl_range_count cells (fun i => mask &&& (1 <<< i) ≠ 0) k cells.length le_rfl
  rw [List.take_length] at this
  exact this

lemma solveConstraints_masks (cells : List Key) (cs : List Constraint) :
    ∀ s ∈ solveConstraints cells cs, ∃ mask, s = assignedMines cells mask := by
  unfold solveConstraints
  dsimp only
  split_ifs with h1
  · simp
  · refine @foldl_invariant _ _
      (fun sols : List (List Key) => ∀ s ∈ sols, ∃ mask, s = assignedMines cells mask)
      _ _ _ ?_ (by simp)
    intro sols mask _ hinv
    dsimp only
    split_ifs with h2 h3
    · exact hinv
    · intro s hs
      rcases List.mem_append.mp hs with hs | hs
      · exact hinv s hs
      · simp only [List.mem_singleton] at hs
        exact ⟨mask, hs⟩
    · exact hinv

lemma mineCountIn_le_length (sols : List (List Key)) (k : Key)
    (h : ∀ s ∈ sols, s.count k ≤ 1) : mineCountIn sols k ≤ sols.length := by
  unfold mineCountIn
  induction sols with
  | nil => simp
  | cons s sols ih =>
    simp only [List.map_cons, List.sum_cons, List.length_cons]
    have h1 := h s (List.mem_cons_self s sols)
    have h2 := ih fun x hx => h x (List.mem_cons_of_mem s hx)
    omega

lemma solveConstraints_value_bounds (g : List Constraint) (k : Key)
    (hne : solveConstraints (groupCellsOf g) g ≠ []) :
    0 ≤ ((mineCountIn (solveConstraints (groupCellsOf g) g) k : ℚ)
        / ((solveConstraints (groupCellsOf g) g).length : ℚ)) ∧
      ((mineCountIn (solveConstraints (groupCellsOf g) g) k : ℚ)
        / ((solveConstraints (groupCellsOf g) g).length : ℚ)) ≤ 1 := by
  set sols := solveConstraints (groupCellsOf g) g with hsols
  have hlen : 0 < (sols.length : ℚ) := by
    have : 0 < sols.length := List.length_pos.mpr hne
    exact_mod_cast this
  constructor
  · exact div_nonneg (by positivity) (le_of_lt hlen)
  · rw [div_le_one hlen]
    have hcount : mineCountIn sols k ≤ sols.length := by
      refine mineCountIn_le_length sols k ?_
      intro s hs
      rcases solveConstraints_masks (groupCellsOf g) g s hs with ⟨mask, rfl⟩
      calc (assignedMines (groupCellsOf g) mask).count k
          ≤ (groupCellsOf g).count k := assignedMines_count_le _ _ _
        _ ≤ 1 := count_le_one_of_nodup (groupCellsOf_nodup g) k
    exact_mod_cast hcount

lemma values_setEntry01 {m : PMap} {k : Key} {v : ℚ}
    (hm : ∀ p ∈ m, 0 ≤ p.2 ∧ p.2 ≤ 1) (hv : 0 ≤ v ∧ v ≤ 1) :
    ∀ p ∈ setEntry m k v, 0 ≤ p.2 ∧ p.2 ≤ 1 :=
  @values_setEntry m k v (fun q => 0 ≤ q ∧ q ≤ 1) hm hv

lemma processGroup_values (r : PMap) (g : List Constraint)
    (h : ∀ p ∈ r, 0 ≤ p.2 ∧ p.2 ≤ 1) :
    ∀ p ∈ processGroup r g, 0 ≤ p.2 ∧ p.2 ≤ 1 := by
  unfold processGroup
  dsimp only
  split_ifs with h1 h2 h3
  · refine @foldl_invariant _ _ (fun r : PMap => ∀ p ∈ r, 0 ≤ p.2 ∧ p.2 ≤ 1) _ _ _ ?_ h
    intro r2 k _ hinv
    exact values_setEntry01 hinv (solveConstraints_value_bounds g k h2)
  · refine @foldl_invariant _ _ (fun r : PMap => ∀ p ∈ r, 0 ≤ p.2 ∧ p.2 ≤ 1) _ _ _ ?_ h
    intro r2 k _ hinv
    exact values_setEntry01 hinv (by norm_num)
  · refine @foldl_invariant _ _ (fun r : PMap => ∀ p ∈ r, 0 ≤ p.2 ∧ p.2 ≤ 1) _ _ _ ?_ h
    intro r2 k _ hinv
    dsimp only
    split_ifs with h4 h5
    · exact values_setEntry01 hinv (clamp01_bounds _)
    · exact values_setEntry01 hinv (clamp01_bounds _)
    · exact hinv
  · exact h

/-- C7: for every board and every (non-negative) remaining-mine count, every
probability value in the returned map lies between 0 and 1 inclusive. -/
theorem C7_probabilities_clamped (b : Board) (m : Int) (_hm : 0 ≤ m) :
    ∀ p ∈ calculateProbabilities b m, 0 ≤ p.2 ∧ p.2 ≤ 1 := by
  unfold calculateProbabilities
  dsimp only
  refine @foldl_invariant _ _ (fun r : PMap => ∀ p ∈ r, 0 ≤ p.2 ∧ p.2 ≤ 1) _ _ _ ?_ ?_
  · intro r k _ hinv
    dsimp only
    split_ifs with h1 h2
    · exact values_setEntry01 hinv (clamp01_bounds _)
    · exact values_setEntry01 hinv (clamp01_bounds _)
    · exact hinv
  · split_ifs with h0
    · refine @foldl_invariant _ _ (fun r : PMap => ∀ p ∈ r, 0 ≤ p.2 ∧ p.2 ≤ 1) _ _ _ ?_ ?_
      · intro r k _ hinv
        exact values_setEntry01 hinv (clamp01_bounds _)
      · refine @foldl_invariant _ _ (fun r : PMap => ∀ p ∈ r, 0 ≤ p.2 ∧ p.2 ≤ 1) _ _ _ ?_ ?_
        · intro r g _ hinv
          exact processGroup_values r g hinv
        · refine @foldl_invariant _ _ (fun r : PMap => ∀ p ∈ r, 0 ≤ p.2 ∧ p.2 ≤ 1) _ _ _ ?_ ?_
          · intro r k _ hinv
            exact values_setEntry01 hinv (by norm_num)
          · refine @foldl_invariant _ _ (fun r : PMap => ∀ p ∈ r, 0 ≤ p.2 ∧ p.2 ≤ 1) _ _ _ ?_ ?_
            · intro r k _ hinv
              exact values_setEntry01 hinv (by norm_num)
            · simp
    · refine @foldl_invariant _ _ (fun r : PMap => ∀ p ∈ r, 0 ≤ p.2 ∧ p.2 ≤ 1) _ _ _ ?_ ?_
      · intro r g _ hinv
        exact processGroup_values r g hinv
      · refine @foldl_invariant _ _ (fun r : PMap => ∀ p ∈ r, 0 ≤ p.2 ∧ p.2 ≤ 1) _ _ _ ?_ ?_
        · intro r k _ hinv
          exact values_setEntry01 hinv (by norm_num)
        · refine @foldl_invariant _ _ (fun r : PMap => ∀ p ∈ r, 0 ≤ p.2 ∧ p.2 ≤ 1) _ _ _ ?_ ?_
          · intro r k _ hinv
            exact values_setEntry01 hinv (by norm_num)
          · simp

/-- C7 (witness): the theorem applied to the 1 × 1 board with one unrevealed
cell and one remaining mine. -/
theorem C7_witness :
    0 ≤ (1 : Int) ∧ ∃ p ∈ calculateProbabilities bU 1, 0 ≤ p.2 ∧ p.2 ≤ 1 := by
  have hsome : (lookupEntry (calculateProbabilities bU 1) (cellKey 0 0)).isSome = true := by
    decide
  obtain ⟨q, hq⟩ := Option.isSome_iff_exists.mp hsome
  exact ⟨by decide, ⟨(cellKey 0 0, q), lookup_mem hq,
    C7_probabilities_clamped bU 1 (by decide) _ (lookup_mem hq)⟩⟩

lemma narrowCells_subset (ks km cells : List Key) (mines : Int) :
    ∀ x ∈ (narrowCells ks km cells mines).1, x ∈ cells := by
  unfold narrowCells
  have : ∀ x ∈ (cells.foldl
      (fun acc k =>
        if k ∈ ks then acc
        else if k ∈ km then (acc.1, acc.2 - 1)
        else (acc.1 ++ [k], acc.2)) ([], mines)).1, x ∈ cells := by
    refine @foldl_invariant _ _ (fun acc : List Key × Int => ∀ x ∈ acc.1, x ∈ cells)
      _ _ _ ?_ (by simp)
    intro acc k hk hinv
    dsimp only
    split_ifs with h1 h2
    · exact hinv
    · exact hinv
    · intro x hx
      rcases List.mem_append.mp hx with hx | hx
      · exact hinv x hx
      · simp only [List.mem_singleton] at hx
        exact hx ▸ hk
  exact this

lemma getD_mem_of_cells_ne {cs : List Constraint} {j : Nat}
    (h : (cs.getD j default).cells ≠ []) : cs.getD j default ∈ cs := by
  by_cases hj : j < cs.length
  · rw [List.getD_eq_getElem cs default hj]
    exact List.getElem_mem hj
  · exfalso
    apply h
    rw [List.getD_eq_default cs default (Nat.le_of_not_lt hj)]
    rfl

lemma applyDerived_keysIn (U : Key → Prop) (ss : SubState) (diff : List Key) (dm : Int)
    (hs : SubKeysIn U ss) (hdiff : ∀ k ∈ diff, U k) :
    SubKeysIn U (applyDerived ss diff dm) := by
  obtain ⟨hks, hkm, hder⟩ := hs
  unfold applyDerived
  dsimp only
  split_ifs with h1 h2 h3 h4
  · refine ⟨?_, hkm, hder⟩
    intro k hk
    rcases addAllGuarded_mem _ _ _ _ k hk with hk' | ⟨hk', _⟩
    · exact hks k hk'
    · exact hdiff k hk'
  · refine ⟨hks, ?_, hder⟩
    intro k hk
    rcases addAllGuarded_mem _ _ _ _ k hk with hk' | ⟨hk', _⟩
    · exact hkm k hk'
    · exact hdiff k hk'
  · exact ⟨hks, hkm, hder⟩
  · refine ⟨hks, hkm, ?_⟩
    intro d hd k hk
    rcases List.mem_append.mp hd with hd | hd
    · exact hder d hd k hk
    · simp only [List.mem_singleton] at hd
      subst hd
      exact hdiff k hk
  · exact ⟨hks, hkm, hder⟩

lemma subsetPair_keysIn (U : Key → Prop) (cs : List Constraint) (ss : SubState) (i j : Nat)
    (hcs : ∀ c ∈ cs, ∀ k ∈ c.cells, U k) (hs : SubKeysIn U ss) :
    SubKeysIn U (subsetPair cs ss i j) := by
  unfold subsetPair
  dsimp only
  split_ifs with h1 h2 h3 h4
  · exact hs
  · exact hs
  · exact hs
  · refine applyDerived_keysIn U ss _ _ hs ?_
    intro k hk
    have hk' := List.mem_of_mem_filter hk
    exact hcs _ (getD_mem_of_cells_ne h3) k hk'
  · exact hs

lemma subsetPhase_keysIn (U : Key → Prop) (cs : List Constraint) (ks km : List Key) (ch : Bool)
    (hcs : ∀ c ∈ cs, ∀ k ∈ c.cells, U k) (hks : ∀ k ∈ ks, U k) (hkm : ∀ k ∈ km, U k) :
    SubKeysIn U (subsetPhase cs ks km ch) := by
  unfold subsetPhase subsetPhaseFrom
  refine @foldl_invariant _ _ (SubKeysIn U) _ _ _ ?_ ⟨hks, hkm, by simp⟩
  intro ss i _ hinv
  unfold subsetOuter
  refine @foldl_invariant _ _ (SubKeysIn U) _ _ _ ?_ hinv
  intro ss2 j _ hinv2
  exact subsetPair_keysIn U cs ss2 i j hcs hinv2

lemma narrowConstraint_keysIn (U : Key → Prop)
    (ns : List Constraint × List Key × List Key × Bool) (c : Constraint)
    (hc : ∀ k ∈ c.cells, U k) (hs : NarrowKeysIn U ns) :
    NarrowKeysIn U (narrowConstraint ns c) := by
  obtain ⟨hdone, hks, hkm⟩ := hs
  have hrem : ∀ k ∈ (narrowCells ns.2.1 ns.2.2.1 c.cells c.mines).1, U k :=
    fun k hk => hc k (narrowCells_subset _ _ _ _ k hk)
  have hdone' : ∀ d ∈ ns.1 ++ [(⟨(narrowCells ns.2.1 ns.2.2.1 c.cells c.mines).1,
      max 0 (narrowCells ns.2.1 ns.2.2.1 c.cells c.mines).2⟩ : Constraint)],
      ∀ k ∈ d.cells, U k := by
    intro d hd k hk
    rcases List.mem_append.mp hd with hd | hd
    · exact hdone d hd k hk
    · simp only [List.mem_singleton] at hd
      subst hd
      exact hrem k hk
  unfold narrowConstraint
  dsimp only
  split_ifs with h1 h2 h3
  · exact ⟨hdone', hks, hkm⟩
  · refine ⟨hdone', ?_, hkm⟩
    intro k hk
    rcases addAll_mem _ _ _ k hk with hk' | hk'
    · exact hks k hk'
    · exact hrem k hk'
  · refine ⟨hdone', hks, ?_⟩
    intro k hk
    rcases addAll_mem _ _ _ k hk with hk' | hk'
    · exact hkm k hk'
    · exact hrem k hk'
  · exact ⟨hdone', hks, hkm⟩

lemma narrowPass_keysIn (U : Key → Prop) (cs : List Constraint) (ks km : List Key) (ch : Bool)
    (hcs : ∀ c ∈ cs, ∀ k ∈ c.cells, U k) (hks : ∀ k ∈ ks, U k) (hkm : ∀ k ∈ km, U k) :
    NarrowKeysIn U (narrowPass cs ks km ch) := by
  unfold narrowPass
  refine @foldl_invariant _ _ (NarrowKeysIn U) _ _ _ ?_ ⟨by simp, hks, hkm⟩
  intro ns c hc hinv
  exact narrowConstraint_keysIn U ns c (hcs c hc) hinv

lemma propagationPass_keysIn (U : Key → Prop) (s : PState) (hs : StateKeysIn U s) :
    StateKeysIn U (propagationPass s) := by
  obtain ⟨hcs, hks, hkm⟩ := hs
  have hn := narrowPass_keysIn U s.constraints s.knownSafe s.knownMines s.changed hcs hks hkm
  obtain ⟨hn1, hn2, hn3⟩ := hn
  have hsub := subsetPhase_keysIn U (narrowPass s.constraints s.knownSafe s.knownMines s.changed).1
    (narrowPass s.constraints s.knownSafe s.knownMines s.changed).2.1
    (narrowPass s.constraints s.knownSafe s.knownMines s.changed).2.2.1
    (narrowPass s.constraints s.knownSafe s.knownMines s.changed).2.2.2 hn1 hn2 hn3
  obtain ⟨hs1, hs2, hs3⟩ := hsub
  unfold propagationPass
  dsimp only
  split_ifs with h1
  · refine ⟨?_, hs1, hs2⟩
    intro c hc k hk
    rcases List.mem_append.mp hc with hc | hc
    · exact hn1 c hc k hk
    · exact hs3 c hc k hk
  · exact ⟨hn1, hs1, hs2⟩

lemma propagationLoop_keysIn (U : Key → Prop) (fuel : Nat) (s : PState)
    (hs : StateKeysIn U s) : StateKeysIn U (propagationLoop fuel s) := by
  induction fuel generalizing s with
  | zero => exact hs
  | succ fuel ih =>
    unfold propagationLoop
    split_ifs with hc
    · exact ih _ (propagationPass_keysIn U _ hs)
    · exact hs

/-! ## Characterizing the scan -/

lemma foldl_mem_iff {β γ : Type _} (g : γ → β → γ) (memf : γ → Key → Prop) (C : β → Key → Prop)
    (hg : ∀ acc i x, memf (g acc i) x ↔ memf acc x ∨ C i x) :
    ∀ (l : List β) (acc : γ) (x : Key),
      memf (l.foldl g acc) x ↔ memf acc x ∨ ∃ i ∈ l, C i x := by
  intro l
  induction l with
  | nil => simp
  | cons a l ih =>
    intro acc x
    rw [List.foldl_cons, ih, hg]
    constructor
    · rintro ((h | h) | ⟨i, hi, h⟩)
      · exact Or.inl h
      · exact Or.inr ⟨a, List.mem_cons_self a l, h⟩
      · exact Or.inr ⟨i, List.mem_cons_of_mem a hi, h⟩
    · rintro (h | ⟨i, hi, h⟩)
      · exact Or.inl (Or.inl h)
      · rcases List.mem_cons.mp hi with rfl | hi
        · exact Or.inl (Or.inr h)
        · exact Or.inr ⟨i, hi, h⟩

lemma isValidCell_iff {b : Board} {r c : Int} :
    isValidCell b r c = true ↔ 0 ≤ r ∧ r < (b.rows : Int) ∧ 0 ≤ c ∧ c < (b.cols : Int) := by
  unfold isValidCell
  simp [and_assoc]

lemma getCell_lt {b : Board} {r c : Nat} {cell : Cell}
    (h : getCell b r c = some cell) : r < b.rows ∧ c < b.cols := by
  unfold getCell at h
  split at h
  · next hv =>
    rw [isValidCell_iff] at hv
    constructor
    · exact_mod_cast hv.2.1
    · exact_mod_cast hv.2.2.2
  · exact absurd h (by simp)

lemma scanCell_unrev_mem (b : Board) (acc : List Key × List Constraint) (row col : Nat)
    (x : Key) :
    x ∈ (scanCell b acc row col).1 ↔ x ∈ acc.1 ∨
      ∃ cell, getCell b row col = some cell ∧ cell.isRevealed = false ∧
        cell.isFlagged = false ∧ x = cellKey row col := by
  unfold scanCell
  cases hc : getCell b row col with
  | none => simp
  | some cell =>
    dsimp only
    split_ifs with h1
    · rw [mem_addSet]
      simp only [Bool.and_eq_true, Bool.not_eq_true'] at h1
      constructor
      · rintro (h | h)
        · exact Or.inl h
        · exact Or.inr ⟨cell, rfl, h1.1, h1.2, h⟩
      · rintro (h | ⟨cell', he, hrev, hfl, hx⟩)
        · exact Or.inl h
        · exact Or.inr hx
    · simp only [Bool.and_eq_true, Bool.not_eq_true', not_and_or] at h1
      constructor
      · exact Or.inl
      · rintro (h | ⟨cell', he, hrev, hfl, hx⟩)
        · exact h
        · exfalso
          have h2 : cell = cell' := by injection he
          subst h2
          rcases h1 with h1 | h1
          · exact h1 hrev
          · exact h1 hfl

lemma mem_unrevealedCells (b : Board) (x : Key) :
    x ∈ unrevealedCells b ↔
      ∃ row col : Nat, ∃ cell, getCell b row col = some cell ∧
        cell.isRevealed = false ∧ cell.isFlagged = false ∧ x = cellKey row col := by
  unfold unrevealedCells scanBoard
  rw [foldl_mem_iff _ (fun acc x => x ∈ acc.1)
    (fun (row : Nat) x => ∃ col ∈ List.range b.cols, ∃ cell, getCell b row col = some cell ∧
      cell.isRevealed = false ∧ cell.isFlagged = false ∧ x = cellKey row col)
    (fun acc (row : Nat) x => foldl_mem_iff _ (fun acc x => x ∈ acc.1)
      (fun (col : Nat) x => ∃ cell, getCell b row col = some cell ∧ cell.isRevealed = false ∧
        cell.isFlagged = false ∧ x = cellKey row col)
      (fun acc2 (col : Nat) x => scanCell_unrev_mem b acc2 row col x) (List.range b.cols) acc x)]
  simp only [List.not_mem_nil, false_or, List.mem_range]
  constructor
  · rintro ⟨row, hrow, col, hcol, cell, hc, hrev, hfl, hx⟩
    exact ⟨row, col, cell, hc, hrev, hfl, hx⟩
  · rintro ⟨row, col, cell, hc, hrev, hfl, hx⟩
    have hlt := getCell_lt hc
    exact ⟨row, hlt.1, col, hlt.2, cell, hc, hrev, hfl, hx⟩

lemma mem_getNeighbors {b : Board} {row col : Nat} {n : Cell} (h : n ∈ getNeighbors b row col) :
    ∃ r c : Nat, getCell b r c = some n := by
  unfold getNeighbors at h
  rcases List.mem_filterMap.mp h with ⟨d, _, hsome⟩
  dsimp only at hsome
  split_ifs at hsome with hv
  · rw [isValidCell_iff] at hv
    refine ⟨((row : Int) + d.1).toNat, ((col : Int) + d.2).toNat, ?_⟩
    have hr : ((((row : Int) + d.1).toNat : Nat) : Int) = (row : Int) + d.1 :=
      Int.toNat_of_nonneg hv.1
    have hc : ((((col : Int) + d.2).toNat : Nat) : Int) = (col : Int) + d.2 :=
      Int.toNat_of_nonneg hv.2.2.1
    unfold getCell
    rw [hr, hc]
    rw [if_pos (isValidCell_iff.mpr hv)]
    exact hsome

lemma coherent_cell_pos {b : Board} (hb : Coherent b) {r c : Nat} {cell : Cell}
    (h : getCell b r c = some cell) : cell.row = r ∧ cell.col = c := by
  unfold getCell at h
  split_ifs at h with hv
  · unfold cellAt at h
    simp only [Int.toNat_natCast] at h
    cases h1 : b.cells[r]? with
    | none =>
      rw [h1] at h
      simp only [Option.bind] at h
      exact absurd h (by simp)
    | some rowL =>
      rw [h1] at h
      simp only [Option.bind] at h
      have hrl : r < b.cells.length := by
        by_contra hcon
        rw [List.getElem?_eq_none (Nat.le_of_not_lt hcon)] at h1
        exact absurd h1 (by simp)
      have hrowL : b.cells.getD r [] = rowL := by
        unfold List.getD
        rw [List.get?_eq_getElem?, h1]
        rfl
      have hcl : c < rowL.length := by
        by_contra hcon
        rw [List.getElem?_eq_none (Nat.le_of_not_lt hcon)] at h
        exact absurd h (by simp)
      have hcell : rowL.getD c default = cell := by
        unfold List.getD
        rw [List.get?_eq_getElem?, h]
        rfl
      obtain ⟨_, hrow⟩ := hb
      have h2 := (hrow r hrl).2 c (by rw [hrowL]; exact hcl)
      rw [hrowL, hcell] at h2
      exact h2

lemma scanCell_constraint_keys (b : Board) (acc : List Key × List Constraint) (row col : Nat)
    (P : Key → Prop) (hacc : ∀ c ∈ acc.2, ∀ k ∈ c.cells, P k)
    (hnb : ∀ n ∈ getNeighbors b row col, n.isRevealed = false → n.isFlagged = false →
      P (cellKey n.row n.col)) :
    ∀ c ∈ (scanCell b acc row col).2, ∀ k ∈ c.cells, P k := by
  unfold scanCell
  cases hc : getCell b row col with
  | none => exact hacc
  | some cell =>
    dsimp only
    split_ifs with h1 h2
    · intro c hcm k hk
      rcases List.mem_append.mp hcm with hcm | hcm
      · exact hacc c hcm k hk
      · simp only [List.mem_singleton] at hcm
        subst hcm
        simp only [List.mem_map] at hk
        rcases hk with ⟨n, hn, rfl⟩
        have hn' := List.mem_of_mem_filter hn
        have hcond := List.of_mem_filter hn
        simp only [Bool.and_eq_true, Bool.not_eq_true'] at hcond
        exact hnb n hn' hcond.1 hcond.2
    · exact hacc
    · exact hacc

lemma scanBoard_constraint_keys (b : Board) (P : Key → Prop)
    (hnb : ∀ row col : Nat, ∀ n ∈ getNeighbors b row col,
      n.isRevealed = false → n.isFlagged = false → P (cellKey n.row n.col)) :
    ∀ c ∈ (scanBoard b).2, ∀ k ∈ c.cells, P k := by
  unfold scanBoard
  refine @foldl_invariant _ _
    (fun acc : List Key × List Constraint => ∀ c ∈ acc.2, ∀ k ∈ c.cells, P k) _ _ _ ?_ (by simp)
  intro acc row _ hinv
  refine @foldl_invariant _ _
    (fun acc : List Key × List Constraint => ∀ c ∈ acc.2, ∀ k ∈ c.cells, P k) _ _ _ ?_ hinv
  intro acc2 col _ hinv2
  exact scanCell_constraint_keys b acc2 row col P hinv2 (hnb row col)

/-- With a coherent board, every constraint cell produced by the scan is an
unrevealed, unflagged cell of the board. -/
lemma scan_cells_unrevealed (b : Board) (hb : Coherent b) :
    ∀ c ∈ (scanBoard b).2, ∀ k ∈ c.cells, k ∈ unrevealedCells b := by
  refine scanBoard_constraint_keys b _ ?_
  intro row col n hn hrev hfl
  rcases mem_getNeighbors hn with ⟨r, c, hrc⟩
  have hpos := coherent_cell_pos hb hrc
  rw [mem_unrevealedCells]
  exact ⟨r, c, n, hrc, hrev, hfl, by rw [hpos.1, hpos.2]⟩

/-- Every constraint cell produced by the scan is of the form `cellKey r c`. -/
lemma scan_cells_keyWF (b : Board) :
    ∀ c ∈ (scanBoard b).2, ∀ k ∈ c.cells, ∃ r c' : Nat, k = cellKey r c' := by
  refine scanBoard_constraint_keys b _ ?_
  intro row col n _ _ _
  exact ⟨n.row, n.col, rfl⟩

/-! ## The domain of the returned probability map -/

lemma snd_mem_of_mem_enum {α : Type _} {l : List α} {x : Nat × α} (h : x ∈ l.enum) :
    x.2 ∈ l := by
  rw [List.mem_enum_iff_getElem?] at h
  have hlt : x.1 < l.length := by
    by_contra hcon
    rw [List.getElem?_eq_none (Nat.le_of_not_lt hcon)] at h
    exact absurd h (by simp)
  rw [List.getElem?_eq_getElem hlt] at h
  have h2 : x.2 = l[x.1] := by injection h with h2; exact h2.symm
  rw [h2]
  exact List.getElem_mem hlt

lemma addGroup_members (gm : List (Nat × List Constraint)) (root : Nat) (c : Constraint) :
    ∀ e ∈ addGroup gm root c, ∀ x ∈ e.2, (∃ e' ∈ gm, x ∈ e'.2) ∨ x = c := by
  unfold addGroup
  split
  next h =>
    intro e he x hx
    rcases List.mem_map.mp he with ⟨p, hp, rfl⟩
    split_ifs at hx with hc
    · rcases List.mem_append.mp hx with hx | hx
      · exact Or.inl ⟨p, hp, hx⟩
      · simp only [List.mem_singleton] at hx
        exact Or.inr hx
    · exact Or.inl ⟨p, hp, hx⟩
  next h =>
    intro e he x hx
    rcases List.mem_append.mp he with he | he
    · exact Or.inl ⟨e, he, hx⟩
    · simp only [List.mem_singleton] at he
      subst he
      simp only [List.mem_singleton] at hx
      exact Or.inr hx

lemma groupByRoot_members (cs : List Constraint) (p : List Nat) :
    ∀ e ∈ groupByRoot cs p, ∀ c ∈ e.2, c ∈ cs := by
  unfold groupByRoot
  refine @foldl_invariant _ _
    (fun acc : List (Nat × List Constraint) × List Nat => ∀ e ∈ acc.1, ∀ c ∈ e.2, c ∈ cs)
    _ _ _ ?_ (by simp)
  intro acc ic hic hinv
  dsimp only
  intro e he x hx
  rcases addGroup_members acc.1 _ ic.2 e he x hx with ⟨e', he', hx'⟩ | hx'
  · exact hinv e' he' x hx'
  · exact hx' ▸ snd_mem_of_mem_enum hic

lemma partition_members (cs : List Constraint) :
    ∀ g ∈ partitionConstraints cs, ∀ c ∈ g, c ∈ cs := by
  unfold partitionConstraints
  split_ifs with h
  · simp
  · intro g hg c hc
    rcases List.mem_map.mp hg with ⟨e, he, rfl⟩
    exact groupByRoot_members cs _ e he c hc

lemma mem_groupCellsOf (g : List Constraint) (k : Key) :
    k ∈ groupCellsOf g ↔ ∃ c ∈ g, k ∈ c.cells := by
  unfold groupCellsOf
  rw [foldl_mem_iff _ (fun acc k => k ∈ acc) (fun (c : Constraint) k => ∃ a ∈ c.cells, k = a)
    (fun acc (c : Constraint) k => foldl_mem_iff _ (fun acc k => k ∈ acc)
      (fun (a : Key) k => k = a) (fun acc2 (a : Key) k => mem_addSet) c.cells acc k)]
  simp only [List.not_mem_nil, false_or]
  constructor
  · rintro ⟨c, hc, a, ha, rfl⟩
    exact ⟨c, hc, ha⟩
  · rintro ⟨c, hc, hk⟩
    exact ⟨c, hc, k, hk, rfl⟩

lemma processGroup_keys (U : Key → Prop) (r : PMap) (g : List Constraint)
    (hg : ∀ k ∈ groupCellsOf g, U k) (hr : ∀ kk ∈ r.map Prod.fst, U kk) :
    ∀ kk ∈ (processGroup r g).map Prod.fst, U kk := by
  unfold processGroup
  dsimp only
  split_ifs with h1 h2 h3
  · refine @foldl_invariant _ _ (fun r : PMap => ∀ kk ∈ r.map Prod.fst, U kk) _ _ _ ?_ hr
    intro r2 k hk hinv kk hkk
    rcases mem_keys_setEntry.mp hkk with h | he
    · exact hinv kk h
    · exact he ▸ hg k hk
  · refine @foldl_invariant _ _ (fun r : PMap => ∀ kk ∈ r.map Prod.fst, U kk) _ _ _ ?_ hr
    intro r2 k hk hinv kk hkk
    rcases mem_keys_setEntry.mp hkk with h | he
    · exact hinv kk h
    · exact he ▸ hg k hk
  · refine @foldl_invariant _ _ (fun r : PMap => ∀ kk ∈ r.map Prod.fst, U kk) _ _ _ ?_ hr
    intro r2 k hk hinv kk hkk
    split_ifs at hkk with h4 h5
    · rcases mem_keys_setEntry.mp hkk with h | he
      · exact hinv kk h
      · exact he ▸ hg k hk
    · rcases mem_keys_setEntry.mp hkk with h | he
      · exact hinv kk h
      · exact he ▸ hg k hk
    · exact hinv kk hkk
  · exact hr

lemma processGroup_keys_nodup (r : PMap) (g : List Constraint)
    (hr : (r.map Prod.fst).Nodup) : ((processGroup r g).map Prod.fst).Nodup := by
  unfold processGroup
  dsimp only
  split_ifs with h1 h2 h3
  · refine @foldl_invariant _ _ (fun r : PMap => (r.map Prod.fst).Nodup) _ _ _ ?_ hr
    intro r2 k _ hinv
    exact nodup_keys_setEntry hinv
  · refine @foldl_invariant _ _ (fun r : PMap => (r.map Prod.fst).Nodup) _ _ _ ?_ hr
    intro r2 k _ hinv
    exact nodup_keys_setEntry hinv
  · refine @foldl_invariant _ _ (fun r : PMap => (r.map Prod.fst).Nodup) _ _ _ ?_ hr
    intro r2 k _ hinv
    split_ifs with h4 h5
    · exact nodup_keys_setEntry hinv
    · exact nodup_keys_setEntry hinv
    · exact hinv
  · exact hr

lemma calcProb_keys_in (b : Board) (m : Int) (U : Key → Prop)
    (hstate : StateKeysIn U (finalState b))
    (hunrev : ∀ k ∈ unrevealedCells b, U k) :
    ∀ kk ∈ (calculateProbabilities b m).map Prod.fst, U kk := by
  have hgroups : ∀ g ∈ constraintGroups b, ∀ k ∈ groupCellsOf g, U k := by
    intro g hgm k hk
    rcases (mem_groupCellsOf g k).mp hk with ⟨c, hc, hkc⟩
    have hc' := partition_members _ g hgm c hc
    have hc'' := List.mem_of_mem_filter hc'
    exact hstate.1 c hc'' k hkc
  unfold calculateProbabilities
  dsimp only
  refine @foldl_invariant _ _ (fun r : PMap => ∀ kk ∈ r.map Prod.fst, U kk) _ _ _ ?_ ?_
  · intro r k hk hinv kk hkk
    split_ifs at hkk with h1 h2
    · rcases mem_keys_setEntry.mp hkk with h | he
      · exact hinv kk h
      · exact he ▸ hunrev k hk
    · rcases mem_keys_setEntry.mp hkk with h | he
      · exact hinv kk h
      · exact he ▸ hunrev k hk
    · exact hinv kk hkk
  · split_ifs with h0
    · refine @foldl_invariant _ _ (fun r : PMap => ∀ kk ∈ r.map Prod.fst, U kk) _ _ _ ?_ ?_
      · intro r k hk hinv kk hkk
        rcases mem_keys_setEntry.mp hkk with h | he
        · exact hinv kk h
        · exact he ▸ hunrev k (List.mem_of_mem_filter hk)
      · refine @foldl_invariant _ _ (fun r : PMap => ∀ kk ∈ r.map Prod.fst, U kk) _ _ _ ?_ ?_
        · intro r g hgm hinv
          exact processGroup_keys U r g (hgroups g hgm) hinv
        · refine @foldl_invariant _ _ (fun r : PMap => ∀ kk ∈ r.map Prod.fst, U kk) _ _ _ ?_ ?_
          · intro r k hk hinv kk hkk
            rcases mem_keys_setEntry.mp hkk with h | he
            · exact hinv kk h
            · exact he ▸ hstate.2.2 k hk
          · refine @foldl_invariant _ _ (fun r : PMap => ∀ kk ∈ r.map Prod.fst, U kk) _ _ _ ?_ ?_
            · intro r k hk hinv kk hkk
              rcases mem_keys_setEntry.mp hkk with h | he
              · exact hinv kk h
              · exact he ▸ hstate.2.1 k hk
            · simp
    · refine @foldl_invariant _ _ (fun r : PMap => ∀ kk ∈ r.map Prod.fst, U kk) _ _ _ ?_ ?_
      · intro r g hgm hinv
        exact processGroup_keys U r g (hgroups g hgm) hinv
      · refine @foldl_invariant _ _ (fun r : PMap => ∀ kk ∈ r.map Prod.fst, U kk) _ _ _ ?_ ?_
        · intro r k hk hinv kk hkk
          rcases mem_keys_setEntry.mp hkk with h | he
          · exact hinv kk h
          · exact he ▸ hstate.2.2 k hk
        · refine @foldl_invariant _ _ (fun r : PMap => ∀ kk ∈ r.map Prod.fst, U kk) _ _ _ ?_ ?_
          · intro r k hk hinv kk hkk
            rcases mem_keys_setEntry.mp hkk with h | he
            · exact hinv kk h
            · exact he ▸ hstate.2.1 k hk
          · simp

lemma calcProb_keys_nodup (b : Board) (m : Int) :
    ((calculateProbabilities b m).map Prod.fst).Nodup := by
  unfold calculateProbabilities
  dsimp only
  refine @foldl_invariant _ _ (fun r : PMap => (r.map Prod.fst).Nodup) _ _ _ ?_ ?_
  · intro r k _ hinv
    split_ifs with h1 h2
    · exact nodup_keys_setEntry hinv
    · exact nodup_keys_setEntry hinv
    · exact hinv
  · split_ifs with h0
    · refine @foldl_invariant _ _ (fun r : PMap => (r.map Prod.fst).Nodup) _ _ _ ?_ ?_
      · intro r k _ hinv
        exact nodup_keys_setEntry hinv
      · refine @foldl_invariant _ _ (fun r : PMap => (r.map Prod.fst).Nodup) _ _ _ ?_ ?_
        · intro r g _ hinv
          exact processGroup_keys_nodup r g hinv
        · refine @foldl_invariant _ _ (fun r : PMap => (r.map Prod.fst).Nodup) _ _ _ ?_ ?_
          · intro r k _ hinv
            exact nodup_keys_setEntry hinv
          · refine @foldl_invariant _ _ (fun r : PMap => (r.map Prod.fst).Nodup) _ _ _ ?_ ?_
            · intro r k _ hinv
              exact nodup_keys_setEntry hinv
            · simp
    · refine @foldl_invariant _ _ (fun r : PMap => (r.map Prod.fst).Nodup) _ _ _ ?_ ?_
      · intro r g _ hinv
        exact processGroup_keys_nodup r g hinv
      · refine @foldl_invariant _ _ (fun r : PMap => (r.map Prod.fst).Nodup) _ _ _ ?_ ?_
        · intro r k _ hinv
          exact nodup_keys_setEntry hinv
        · refine @foldl_invariant _ _ (fun r : PMap => (r.map Prod.fst).Nodup) _ _ _ ?_ ?_
          · intro r k _ hinv
            exact nodup_keys_setEntry hinv
          · simp

lemma fill_covers (l : List Key) (v : ℚ) :
    ∀ (r0 : PMap) (k : Key), k ∈ l →
      k ∈ ((l.foldl (fun r k => if lookupEntry r k = none then setEntry r k v else r) r0).map
        Prod.fst) := by
  induction l with
  | nil => intro r0 k hk; cases hk
  | cons a l ih =>
    intro r0 k hk
    rw [List.foldl_cons]
    rcases List.mem_cons.mp hk with rfl | hk'
    · have hstep :
          k ∈ ((if lookupEntry r0 k = none then setEntry r0 k v else r0).map Prod.fst) := by
        split_ifs with h
        · exact mem_keys_setEntry.mpr (Or.inr rfl)
        · exact lookup_isSome_iff.mp (Option.isSome_iff_ne_none.mpr h)
      refine @foldl_invariant _ _ (fun r : PMap => k ∈ r.map Prod.fst) _ _ _ ?_ hstep
      intro r x _ hinv
      split_ifs with h
      · exact mem_keys_setEntry.mpr (Or.inl hinv)
      · exact hinv
    · exact ih _ k hk'

lemma calcProb_covers (b : Board) (m : Int) :
    ∀ k ∈ unrevealedCells b, k ∈ (calculateProbabilities b m).map Prod.fst := by
  intro k hk
  unfold calculateProbabilities
  dsimp only
  exact fill_covers _ _ _ k hk

/-- C6: for every coherent board and remaining-mine count, the returned map
has exactly one entry for each cell that is unrevealed and unflagged, and no
entry for any revealed or flagged cell: its keys are duplicate-free, and a
key occurs iff it is the identifier of an unrevealed, unflagged board
cell. -/
theorem C6_map_domain (b : Board) (m : Int) (hb : Coherent b) :
    ((calculateProbabilities b m).map Prod.fst).Nodup ∧
      ∀ k, k ∈ (calculateProbabilities b m).map Prod.fst ↔
        ∃ row col : Nat, ∃ cell, getCell b row col = some cell ∧
          cell.isRevealed = false ∧ cell.isFlagged = false ∧ k = cellKey row col := by
  have hstate : StateKeysIn (fun k => k ∈ unrevealedCells b) (finalState b) := by
    refine propagationLoop_keysIn _ _ _
      ⟨?_, fun k hk => absurd hk (List.not_mem_nil k), fun k hk => absurd hk (List.not_mem_nil k)⟩
    exact fun c hc k hk => scan_cells_unrevealed b hb c hc k hk
  refine ⟨calcProb_keys_nodup b m, ?_⟩
  intro k
  rw [← mem_unrevealedCells]
  constructor
  · exact fun hk => calcProb_keys_in b m _ hstate (fun x hx => hx) k hk
  · exact fun hk => calcProb_covers b m k hk

/-- C6 (witness): the theorem applied to the 1 × 1 board whose only cell is
unrevealed. -/
theorem C6_witness :
    Coherent bU ∧ cellKey 0 0 ∈ (calculateProbabilities bU 1).map Prod.fst := by
  have h := C6_map_domain bU 1 (by decide)
  exact ⟨by decide, (h.2 (cellKey 0 0)).mpr
    ⟨0, 0, ⟨0, 0, false, 0, false, false⟩, by decide, rfl, rfl, rfl⟩⟩

/-! ## Claim C10: key parsing inverts `cellKey` -/

lemma getDefinitiveCells_spec (b : Board) (m : Int) :
    (∀ rc ∈ (getDefinitiveCells b m).1,
      ∃ p ∈ calculateProbabilities b m, p.2 = 0 ∧ parseKey p.1 = rc) ∧
    ∀ rc ∈ (getDefinitiveCells b m).2,
      ∃ p ∈ calculateProbabilities b m, p.2 = 1 ∧ parseKey p.1 = rc := by
  unfold getDefinitiveCells
  refine @foldl_invariant _ _
    (fun acc : List (Nat × Nat) × List (Nat × Nat) =>
      (∀ rc ∈ acc.1, ∃ p ∈ calculateProbabilities b m, p.2 = 0 ∧ parseKey p.1 = rc) ∧
      ∀ rc ∈ acc.2, ∃ p ∈ calculateProbabilities b m, p.2 = 1 ∧ parseKey p.1 = rc)
    _ _ _ ?_ (by simp)
  intro acc p hp hinv
  dsimp only
  split_ifs with h0 h1
  · refine ⟨?_, hinv.2⟩
    intro rc hrc
    rcases List.mem_append.mp hrc with hrc | hrc
    · exact hinv.1 rc hrc
    · simp only [List.mem_singleton] at hrc
      exact ⟨p, hp, h0, hrc.symm⟩
  · refine ⟨hinv.1, ?_⟩
    intro rc hrc
    rcases List.mem_append.mp hrc with hrc | hrc
    · exact hinv.2 rc hrc
    · simp only [List.mem_singleton] at hrc
      exact ⟨p, hp, h1, hrc.symm⟩
  · exact hinv

lemma calcProb_keys_cellKey (b : Board) (m : Int) :
    ∀ kk ∈ (calculateProbabilities b m).map Prod.fst, ∃ r c : Nat, kk = cellKey r c := by
  refine calcProb_keys_in b m _ ?_ ?_
  · refine propagationLoop_keysIn _ _ _
      ⟨?_, fun k hk => absurd hk (List.not_mem_nil k), fun k hk => absurd hk (List.not_mem_nil k)⟩
    exact fun c hc k hk => scan_cells_keyWF b c hc k hk
  · intro k hk
    rcases (mem_unrevealedCells b k).mp hk with ⟨row, col, cell, _, _, _, hx⟩
    exact ⟨row, col, hx⟩

/-- C10: parsing the identifier produced by `cellKey` — splitting on the
comma as `getDefinitiveCells` does — recovers exactly the coordinate pair;
hence every coordinate pair in the safe list of `getDefinitiveCells` is that
of a cell whose computed probability is exactly 0, and every pair in the
mines list is that of a cell whose probability is exactly 1. -/
theorem C10_cellKey_roundtrip :
    (∀ r c : Nat, parseKey (cellKey r c) = (r, c)) ∧
      ∀ (b : Board) (m : Int) (rc : Nat × Nat),
        (rc ∈ (getDefinitiveCells b m).1 →
          lookupEntry (calculateProbabilities b m) (cellKey rc.1 rc.2) = some 0) ∧
        (rc ∈ (getDefinitiveCells b m).2 →
          lookupEntry (calculateProbabilities b m) (cellKey rc.1 rc.2) = some 1) := by
  refine ⟨parseKey_cellKey, ?_⟩
  intro b m rc
  constructor
  · intro hrc
    obtain ⟨p, hp, hv, hpk⟩ := (getDefinitiveCells_spec b m).1 rc hrc
    obtain ⟨r', c', hk⟩ :=
      calcProb_keys_cellKey b m p.1 (List.mem_map.mpr ⟨p, hp, rfl⟩)
    have hrc' : rc = (r', c') := by
      rw [hk, parseKey_cellKey] at hpk
      exact hpk.symm
    have hk2 : cellKey rc.1 rc.2 = p.1 := by
      rw [hrc', hk]
    rw [hk2, ← hv]
    exact mem_lookup (calcProb_keys_nodup b m) (by simpa using hp)
  · intro hrc
    obtain ⟨p, hp, hv, hpk⟩ := (getDefinitiveCells_spec b m).2 rc hrc
    obtain ⟨r', c', hk⟩ :=
      calcProb_keys_cellKey b m p.1 (List.mem_map.mpr ⟨p, hp, rfl⟩)
    have hrc' : rc = (r', c') := by
      rw [hk, parseKey_cellKey] at hpk
      exact hpk.symm
    have hk2 : cellKey rc.1 rc.2 = p.1 := by
      rw [hrc', hk]
    rw [hk2, ← hv]
    exact mem_lookup (calcProb_keys_nodup b m) (by simpa using hp)

/-- C10 (witness): on `bS` the pair `(0, 0)` is reported safe and, by the
theorem, its key maps to probability exactly `0`. -/
theorem C10_witness :
    (0, 0) ∈ (getDefinitiveCells bS 1).1 ∧
      lookupEntry (calculateProbabilities bS 1) (cellKey 0 0) = some 0 :=
  ⟨by decide, (C10_cellKey_roundtrip.2 bS 1 (0, 0)).1 (by decide)⟩

lemma iterP_add (p : List Nat) (k j : Nat) : ∀ x, iterP p (k + j) x = iterP p j (iterP p k x) := by
  induction k with
  | zero => intro x; rw [Nat.zero_add]; rfl
  | succ k ih =>
    intro x
    have he : k + 1 + j = (k + j) + 1 := by omega
    rw [he]
    show iterP p (k + j) (stepP p x) = _
    rw [ih (stepP p x)]
    rfl

lemma iterP_root {p : List Nat} {y : Nat} (h : isRootP p y) : ∀ j, iterP p j y = y := by
  intro j
  induction j with
  | zero => rfl
  | succ j ih =>
    show iterP p j (stepP p y) = y
    rw [h]
    exact ih

lemma iterP_stab {p : List Nat} {k j : Nat} {x : Nat} (h : isRootP p (iterP p k x))
    (hkj : k ≤ j) : iterP p j x = iterP p k x := by
  have he : j = k + (j - k) := by omega
  rw [he, iterP_add]
  exact iterP_root h _

lemma root_unique {p : List Nat} {k j : Nat} {x : Nat} (hk : isRootP p (iterP p k x))
    (hj : isRootP p (iterP p j x)) : iterP p k x = iterP p j x := by
  rcases le_total k j with h | h
  · rw [iterP_stab hk h]
  · rw [iterP_stab hj h]

lemma iterP_lt {p : List Nat} (hb : BndP p) {x : Nat} (hx : x < p.length) (k : Nat) :
    iterP p k x < p.length := by
  induction k generalizing x with
  | zero => exact hx
  | succ k ih =>
    show iterP p k (stepP p x) < p.length
    refine ih ?_
    unfold stepP
    rw [List.getD_eq_getElem p x hx]
    exact hb _ (List.getElem_mem hx)

lemma isRootP_of_le {p : List Nat} {x : Nat} (h : p.length ≤ x) : isRootP p x := by
  unfold isRootP stepP
  rw [List.getD_eq_default]
  exact h

lemma iterP_periodic {p : List Nat} {x i j : Nat} (hij : iterP p i x = iterP p j x) :
    ∀ t, iterP p (i + t) x = iterP p (j + t) x := by
  intro t
  rw [iterP_add, iterP_add, hij]

lemma first_root_le {p : List Nat} (hb : BndP p) {x k : Nat}
    (h : isRootP p (iterP p k x)) : isRootP p (rootD p x) := by
  by_cases hx : x < p.length
  · have hex : ∃ k, isRootP p (iterP p k x) := ⟨k, h⟩
    set K := Nat.find hex with hK
    have hKroot : isRootP p (iterP p K x) := Nat.find_spec hex
    by_cases hKle : K ≤ p.length
    · unfold rootD
      rw [iterP_stab hKroot hKle]
      exact hKroot
    · exfalso
      push_neg at hKle
      have hdist : ∀ i j, i < j → j ≤ K → iterP p i x ≠ iterP p j x := by
        intro i j hij hjK he
        have hper := iterP_periodic he
        have hm : i ≤ K - (j - i) := by omega
        have hmK : (K - (j - i)) + (j - i) = K := by omega
        have h1 : iterP p (i + ((K - (j - i)) - i)) x = iterP p (j + ((K - (j - i)) - i)) x :=
          hper _
        have h2 : i + ((K - (j - i)) - i) = K - (j - i) := by omega
        have h3 : j + ((K - (j - i)) - i) = K := by omega
        rw [h2, h3] at h1
        have hroot' : isRootP p (iterP p (K - (j - i)) x) := by
          rw [h1]
          exact hKroot
        have hlt : K - (j - i) < K := by omega
        exact Nat.find_min hex hlt hroot'
      have hmaps : ∀ i ∈ Finset.range (p.length + 1),
          iterP p i x ∈ Finset.range p.length := by
        intro i _
        rw [Finset.mem_range]
        exact iterP_lt hb hx i
      have hcard : (Finset.range p.length).card < (Finset.range (p.length + 1)).card := by
        simp
      obtain ⟨i, hi, j, hj, hne, he⟩ :=
        Finset.exists_ne_map_eq_of_card_lt_of_maps_to hcard hmaps
      rw [Finset.mem_range] at hi hj
      rcases Nat.lt_or_ge i j with hij | hij
      · exact hdist i j hij (by omega) he
      · have hij' : j < i := by omega
        exact hdist j i hij' (by omega) he.symm
  · have hroot : isRootP p x := isRootP_of_le (Nat.le_of_not_lt hx)
    unfold rootD
    rw [iterP_root hroot]
    exact hroot

lemma rootD_isRoot {p : List Nat} (hwf : WFP p) (x : Nat) : isRootP p (rootD p x) := by
  obtain ⟨k, hk⟩ := hwf.2 x
  exact first_root_le hwf.1 hk

lemma rootD_of_root {p : List Nat} {x : Nat} (h : isRootP p x) : rootD p x = x :=
  iterP_root h _

lemma rootD_lt {p : List Nat} (hb : BndP p) {x : Nat} (hx : x < p.length) :
    rootD p x < p.length := iterP_lt hb hx _

lemma rootD_eq_iterP {p : List Nat} (hwf : WFP p) {x k : Nat}
    (h : isRootP p (iterP p k x)) : rootD p x = iterP p k x :=
  root_unique (rootD_isRoot hwf x) h

lemma rootD_step {p : List Nat} (hwf : WFP p) (x : Nat) :
    rootD p (stepP p x) = rootD p x := by
  by_cases hr : isRootP p x
  · rw [hr]
  · obtain ⟨k, hk⟩ := hwf.2 x
    have hk1 : k ≠ 0 := by
      intro h0
      rw [h0] at hk
      exact hr hk
    obtain ⟨k', rfl⟩ := Nat.exists_eq_succ_of_ne_zero hk1
    have hk' : isRootP p (iterP p k' (stepP p x)) := hk
    rw [rootD_eq_iterP hwf hk']
    rw [rootD_eq_iterP hwf hk]
    rfl

lemma rootD_eq_self_iff {p : List Nat} (hwf : WFP p) {x : Nat} :
    rootD p x = x ↔ isRootP p x := by
  constructor
  · intro h
    have := rootD_isRoot hwf x
    rw [h] at this
    exact this
  · exact rootD_of_root

lemma stepP_set {p : List Nat} {a : Nat} (ha : a < p.length) (b z : Nat) :
    stepP (p.set a b) z = if z = a then b else stepP p z := by
  unfold stepP
  by_cases hz : z = a
  · rw [if_pos hz, hz]
    unfold List.getD
    simp only [List.get?_eq_getElem?]
    rw [List.getElem?_set_eq ha]
    rfl
  · rw [if_neg hz]
    unfold List.getD
    simp only [List.get?_eq_getElem?]
    rw [List.getElem?_set_ne (fun h => hz h.symm)]

lemma BndP_set {p : List Nat} (hb : BndP p) {b : Nat} (hblt : b < p.length) (a : Nat) :
    BndP (p.set a b) := by
  intro y hy
  rw [List.length_set]
  rcases List.mem_or_eq_of_mem_set hy with h | h
  · exact hb y h
  · rw [h]; exact hblt

/-- The key path-redirection lemma: after `parent[a] = b` where `b` is a root
and either `a` is a root or `b` is already the root of `a`, every chain still
reaches a root, and the roots change exactly by sending `a`'s old class to `b`. -/
lemma redirect_iter {p : List Nat} {a b : Nat} (ha : a < p.length)
    (hbroot : isRootP p b) (hcase : isRootP p a ∨ rootD p a = b) (hab : a ≠ b) :
    ∀ k z, isRootP p (iterP p k z) →
      ∃ m, isRootP (p.set a b) (iterP (p.set a b) m z) ∧
        iterP (p.set a b) m z =
          (if iterP p k z = rootD p a then b else iterP p k z) := by
  have hbroot' : isRootP (p.set a b) b := by
    unfold isRootP
    rw [stepP_set ha, if_neg (fun h => hab h.symm)]
    exact hbroot
  intro k
  induction k with
  | zero =>
    intro z hz
    have hz0 : isRootP p z := hz
    show ∃ m, isRootP (p.set a b) (iterP (p.set a b) m z) ∧
      iterP (p.set a b) m z = (if z = rootD p a then b else z)
    by_cases hza : z = a
    · rcases hcase with hra | hrb
      · have hs : stepP (p.set a b) z = b := by rw [stepP_set ha, if_pos hza]
        have hcond : z = rootD p a := by rw [rootD_of_root hra]; exact hza
        refine ⟨1, ?_, ?_⟩
        · show isRootP _ (stepP (p.set a b) z)
          rw [hs]; exact hbroot'
        · show stepP (p.set a b) z = _
          rw [hs, if_pos hcond]
      · exfalso
        have hza' : isRootP p a := by rw [← hza]; exact hz0
        rw [rootD_of_root hza'] at hrb
        exact hab hrb
    · refine ⟨0, ?_, ?_⟩
      · show isRootP (p.set a b) z
        unfold isRootP
        rw [stepP_set ha, if_neg hza]
        exact hz0
      · show z = _
        by_cases hzr : z = rootD p a
        · rcases hcase with hra | hrb
          · exact absurd (hzr.trans (rootD_of_root hra)) hza
          · rw [if_pos hzr, hzr]
            exact hrb
        · rw [if_neg hzr]
  | succ k ih =>
    intro z hz
    by_cases hzroot : isRootP p z
    · have hk : isRootP p (iterP p k z) := (iterP_root hzroot k).symm ▸ hzroot
      obtain ⟨m, hm1, hm2⟩ := ih z hk
      rw [iterP_root hzroot] at hm2
      refine ⟨m, hm1, ?_⟩
      rw [hm2, iterP_root hzroot]
    · by_cases hza : z = a
      · rcases hcase with hra | hrb
        · exact absurd (by rw [hza]; exact hra) hzroot
        · have hlenroot : isRootP p (iterP p p.length z) := by
            show isRootP p (rootD p z)
            rw [hza, hrb]
            exact hbroot
          have heq : iterP p (k + 1) z = rootD p a := by
            have h1 := root_unique hz hlenroot
            rw [h1]
            show rootD p z = _
            rw [hza]
          refine ⟨1, ?_, ?_⟩
          · show isRootP _ (stepP (p.set a b) z)
            rw [stepP_set ha, if_pos hza]
            exact hbroot'
          · show stepP (p.set a b) z = _
            rw [stepP_set ha, if_pos hza, if_pos heq]
      · have hz' : isRootP p (iterP p k (stepP p z)) := hz
        obtain ⟨m, hm1, hm2⟩ := ih (stepP p z) hz'
        refine ⟨m + 1, ?_, ?_⟩
        · show isRootP _ (iterP _ m (stepP (p.set a b) z))
          rw [stepP_set ha, if_neg hza]
          exact hm1
        · show iterP _ m (stepP (p.set a b) z) = _
          rw [stepP_set ha, if_neg hza]
          exact hm2

/-- Setting `parent[a] = b` (union of roots, or path compression) preserves the
invariant and maps `a`'s old class to `b`, leaving other roots unchanged. -/
lemma redirect_spec {p : List Nat} (hwf : WFP p) {a b : Nat} (ha : a < p.length)
    (hb : b < p.length) (hbroot : isRootP p b) (hcase : isRootP p a ∨ rootD p a = b)
    (hab : a ≠ b) :
    WFP (p.set a b) ∧
      ∀ z, rootD (p.set a b) z = if rootD p z = rootD p a then b else rootD p z := by
  have hwf' : WFP (p.set a b) := by
    refine ⟨BndP_set hwf.1 hb a, ?_⟩
    intro z
    obtain ⟨k, hk⟩ := hwf.2 z
    obtain ⟨m, hm1, _⟩ := redirect_iter ha hbroot hcase hab k z hk
    exact ⟨m, hm1⟩
  refine ⟨hwf', ?_⟩
  intro z
  obtain ⟨k, hk⟩ := hwf.2 z
  obtain ⟨m, hm1, hm2⟩ := redirect_iter ha hbroot hcase hab k z hk
  rw [rootD_eq_iterP hwf' hm1, hm2, ← rootD_eq_iterP hwf hk]

/-- `findRoot` with enough fuel returns the root, preserves the invariant, the
length, and every root. -/
lemma findRoot_spec {p : List Nat} (hwf : WFP p) (fuel : Nat) (x : Nat)
    (hfuel : ∃ k ≤ fuel, isRootP p (iterP p k x)) :
    (findRoot p fuel x).2 = rootD p x ∧ WFP (findRoot p fuel x).1 ∧
      (findRoot p fuel x).1.length = p.length ∧
      ∀ z, rootD (findRoot p fuel x).1 z = rootD p z := by
  induction fuel generalizing p x with
  | zero =>
    obtain ⟨k, hk0, hk⟩ := hfuel
    have hk0' : k = 0 := Nat.le_zero.mp hk0
    rw [hk0'] at hk
    have hroot : isRootP p x := hk
    unfold findRoot
    exact ⟨(rootD_of_root hroot).symm, hwf, rfl, fun _ => rfl⟩
  | succ fuel ih =>
    by_cases hroot : p.getD x x = x
    · have hroot' : isRootP p x := hroot
      unfold findRoot
      rw [if_pos hroot]
      exact ⟨(rootD_of_root hroot').symm, hwf, rfl, fun _ => rfl⟩
    · have hroot' : ¬ isRootP p x := hroot
      have hfuel' : ∃ k ≤ fuel, isRootP p (iterP p k (stepP p x)) := by
        obtain ⟨k, hkle, hk⟩ := hfuel
        match k, hk with
        | 0, hk => exact absurd hk hroot'
        | k + 1, hk => exact ⟨k, by omega, hk⟩
      obtain ⟨hr2, hrwf, hrlen, hrroots⟩ := ih hwf (stepP p x) hfuel'
      set r := findRoot p fuel (stepP p x) with hr
      have hx_lt : x < p.length := by
        by_contra hge
        exact hroot' (isRootP_of_le (Nat.le_of_not_lt hge))
      have hrootx : rootD p (stepP p x) = rootD p x := rootD_step hwf x
      have hr2x : r.2 = rootD p x := by rw [hr2, hrootx]
      have hb_lt : r.2 < r.1.length := by
        rw [hr2x, hrlen]
        exact rootD_lt hwf.1 hx_lt
      have hbroot : isRootP r.1 r.2 := by
        have h1 : rootD r.1 r.2 = r.2 := by
          rw [hrroots, hr2x, rootD_of_root (rootD_isRoot hwf x)]
        exact (rootD_eq_self_iff hrwf).mp h1
      have hcase : isRootP r.1 x ∨ rootD r.1 x = r.2 := Or.inr (by rw [hrroots, hr2x])
      have hxr : x ≠ r.2 := by
        intro he
        rw [hr2x] at he
        exact hroot' ((rootD_eq_self_iff hwf).mp (by rw [← he]))
      have hx_lt' : x < r.1.length := by rw [hrlen]; exact hx_lt
      obtain ⟨hwf', hroots'⟩ := redirect_spec hrwf hx_lt' hb_lt hbroot hcase hxr
      have hresult : findRoot p (fuel + 1) x = (r.1.set x r.2, r.2) := by
        show (if p.getD x x = x then (p, x)
          else ((findRoot p fuel (p.getD x x)).1.set x (findRoot p fuel (p.getD x x)).2,
            (findRoot p fuel (p.getD x x)).2)) = _
        rw [if_neg hroot]
        rfl
      rw [hresult]
      refine ⟨hr2x, hwf', ?_, ?_⟩
      · show (r.1.set x r.2).length = p.length
        rw [List.length_set, hrlen]
      · intro z
        show rootD (r.1.set x r.2) z = rootD p z
        rw [hroots' z]
        by_cases hc : rootD r.1 z = rootD r.1 x
        · rw [if_pos hc, hr2x]
          rw [hrroots, hrroots] at hc
          rw [← hc]
        · rw [if_neg hc, hrroots]

/-- `unionRoots` preserves the invariant and merges exactly the classes of its
two arguments. -/
lemma unionRoots_spec {p : List Nat} (hwf : WFP p) {x y : Nat} (hx : x < p.length)
    (hy : y < p.length) :
    WFP (unionRoots p x y) ∧ (unionRoots p x y).length = p.length ∧
      ∀ z, rootD (unionRoots p x y) z =
        if rootD p z = rootD p x then rootD p y else rootD p z := by
  have hfx := findRoot_spec hwf p.length x ⟨p.length, le_refl _, rootD_isRoot hwf x⟩
  set fx := findRoot p p.length x with hfxd
  obtain ⟨hfx2, hfxwf, hfxlen, hfxroots⟩ := hfx
  have hfy := findRoot_spec hfxwf fx.1.length y
    ⟨fx.1.length, le_refl _, rootD_isRoot hfxwf y⟩
  set fy := findRoot fx.1 fx.1.length y with hfyd
  obtain ⟨hfy2, hfywf, hfylen, hfyroots⟩ := hfy
  have hfy2' : fy.2 = rootD p y := by rw [hfy2, hfxroots]
  have hfyroots' : ∀ z, rootD fy.1 z = rootD p z := by
    intro z; rw [hfyroots, hfxroots]
  have hfylen' : fy.1.length = p.length := by rw [hfylen, hfxlen]
  have hu : unionRoots p x y = if fx.2 ≠ fy.2 then fy.1.set fx.2 fy.2 else fy.1 := rfl
  by_cases hne : fx.2 = fy.2
  · rw [hu, if_neg (by simp [hne])]
    have hxy : rootD p x = rootD p y := by rw [← hfx2, ← hfy2']; exact hne
    refine ⟨hfywf, hfylen', ?_⟩
    intro z
    rw [hfyroots' z]
    by_cases hc : rootD p z = rootD p x
    · rw [if_pos hc, hc]
      exact hxy
    · rw [if_neg hc]
  · rw [hu, if_pos hne]
    have hpx_lt : fx.2 < fy.1.length := by
      rw [hfylen', hfx2]; exact rootD_lt hwf.1 hx
    have hpy_lt : fy.2 < fy.1.length := by
      rw [hfylen', hfy2']; exact rootD_lt hwf.1 hy
    have hbroot : isRootP fy.1 fy.2 := by
      apply (rootD_eq_self_iff hfywf).mp
      rw [hfyroots', hfy2', rootD_of_root (rootD_isRoot hwf y)]
    have haroot : isRootP fy.1 fx.2 := by
      apply (rootD_eq_self_iff hfywf).mp
      rw [hfyroots', hfx2, rootD_of_root (rootD_isRoot hwf x)]
    obtain ⟨hwf', hroots'⟩ := redirect_spec hfywf hpx_lt hpy_lt hbroot (Or.inl haroot) hne
    refine ⟨hwf', ?_, ?_⟩
    · rw [List.length_set, hfylen']
    · intro z
      rw [hroots' z, hfyroots' z, hfyroots' fx.2, hfx2,
        rootD_of_root (rootD_isRoot hwf x), hfy2']

/-- Folding `unionRoots` of `i0` with a list of indices: the invariant holds,
previously merged classes stay merged, every listed index joins `i0`'s class,
and every element stays equivalent to its root under any relation `R` that
contains the united pairs. -/
lemma unionList_spec {rest : List Nat} : ∀ {p : List Nat}, WFP p → ∀ {i0 : Nat},
    i0 < p.length → (∀ i ∈ rest, i < p.length) →
    ∀ (R : Nat → Nat → Prop), (∀ i ∈ rest, R i0 i) →
    (∀ z, Relation.EqvGen R z (rootD p z)) →
    WFP (rest.foldl (fun q2 ik => unionRoots q2 i0 ik) p) ∧
      (rest.foldl (fun q2 ik => unionRoots q2 i0 ik) p).length = p.length ∧
      (∀ a b, rootD p a = rootD p b →
        rootD (rest.foldl (fun q2 ik => unionRoots q2 i0 ik) p) a =
          rootD (rest.foldl (fun q2 ik => unionRoots q2 i0 ik) p) b) ∧
      (∀ i ∈ rest, rootD (rest.foldl (fun q2 ik => unionRoots q2 i0 ik) p) i =
        rootD (rest.foldl (fun q2 ik => unionRoots q2 i0 ik) p) i0) ∧
      (∀ z, Relation.EqvGen R z
        (rootD (rest.foldl (fun q2 ik => unionRoots q2 i0 ik) p) z)) := by
  induction rest with
  | nil =>
    intro p hwf i0 hi0 hrest R hR hEq
    exact ⟨hwf, rfl, fun a b h => h, by simp, hEq⟩
  | cons i rest ih =>
    intro p hwf i0 hi0 hrest R hR hEq
    have hi : i < p.length := hrest i (by simp)
    obtain ⟨hqwf, hqlen, hqroots⟩ := unionRoots_spec hwf hi0 hi
    set q := unionRoots p i0 i with hq
    have hmono : ∀ a b, rootD p a = rootD p b → rootD q a = rootD q b := by
      intro a b h
      rw [hqroots a, hqroots b, h]
    have hunited : rootD q i = rootD q i0 := by
      rw [hqroots i, hqroots i0, if_pos rfl]
      by_cases hc : rootD p i = rootD p i0
      · rw [if_pos hc]
      · rw [if_neg hc]
    have hEqq : ∀ z, Relation.EqvGen R z (rootD q z) := by
      intro z
      rw [hqroots z]
      by_cases hc : rootD p z = rootD p i0
      · rw [if_pos hc]
        have h1 : Relation.EqvGen R z (rootD p i0) := hc ▸ hEq z
        have h2 : Relation.EqvGen R (rootD p i0) i0 :=
          Relation.EqvGen.symm _ _ (hEq i0)
        have h3 : Relation.EqvGen R i0 i := Relation.EqvGen.rel _ _ (hR i (by simp))
        exact (h1.trans _ _ _ h2).trans _ _ _ (h3.trans _ _ _ (hEq i))
      · rw [if_neg hc]
        exact hEq z
    have hi0' : i0 < q.length := by rw [hqlen]; exact hi0
    have hrest' : ∀ j ∈ rest, j < q.length := by
      intro j hj; rw [hqlen]; exact hrest j (by simp [hj])
    have hR' : ∀ j ∈ rest, R i0 j := fun j hj => hR j (by simp [hj])
    obtain ⟨hwf2, hlen2, hmono2, hunited2, hEq2⟩ := ih hqwf hi0' hrest' R hR' hEqq
    have hfold : (i :: rest).foldl (fun q2 ik => unionRoots q2 i0 ik) p =
        rest.foldl (fun q2 ik => unionRoots q2 i0 ik) q := rfl
    rw [hfold]
    refine ⟨hwf2, by rw [hlen2, hqlen], ?_, ?_, hEq2⟩
    · intro a b h
      exact hmono2 a b (hmono a b h)
    · intro j hj
      rcases List.mem_cons.mp hj with rfl | hj'
      · exact hmono2 j i0 hunited
      · exact hunited2 j hj'

/-- `unionAll` over the cell-to-constraints map: the invariant holds, previously
merged classes stay merged, all indices in a common entry end in one class, and
every element stays `R`-equivalent to its root whenever `R` contains the
entry-head pairs. -/
lemma unionAll_spec {cm : List (Key × List Nat)} : ∀ {p : List Nat}, WFP p →
    (∀ e ∈ cm, ∀ i ∈ e.2, i < p.length) →
    ∀ (R : Nat → Nat → Prop),
    (∀ e ∈ cm, ∀ i0 rest, e.2 = i0 :: rest → ∀ i ∈ rest, R i0 i) →
    (∀ z, Relation.EqvGen R z (rootD p z)) →
    WFP (unionAll cm p) ∧ (unionAll cm p).length = p.length ∧
      (∀ a b, rootD p a = rootD p b → rootD (unionAll cm p) a = rootD (unionAll cm p) b) ∧
      (∀ e ∈ cm, ∀ i ∈ e.2, ∀ j ∈ e.2,
        rootD (unionAll cm p) i = rootD (unionAll cm p) j) ∧
      (∀ z, Relation.EqvGen R z (rootD (unionAll cm p) z)) := by
  induction cm with
  | nil =>
    intro p hwf _ R _ hEq
    exact ⟨hwf, rfl, fun a b h => h, by simp, hEq⟩
  | cons e cm ih =>
    intro p hwf hidx R hR hEq
    rcases he2 : e.2 with _ | ⟨i0, rest⟩
    · have hfold : unionAll (e :: cm) p = unionAll cm p := by
        unfold unionAll
        rw [List.foldl_cons, he2]
      rw [hfold]
      obtain ⟨hwf2, hlen2, hmono2, hunited2, hEq2⟩ :=
        ih hwf (fun e' he' i hi => hidx e' (by simp [he']) i hi) R
          (fun e' he' => hR e' (by simp [he'])) hEq
      refine ⟨hwf2, hlen2, hmono2, ?_, hEq2⟩
      intro e' he' i hi j hj
      rcases List.mem_cons.mp he' with rfl | he''
      · rw [he2] at hi
        exact absurd hi (List.not_mem_nil i)
      · exact hunited2 e' he'' i hi j hj
    · have hi0 : i0 < p.length := hidx e (by simp) i0 (by rw [he2]; simp)
      have hrest : ∀ i ∈ rest, i < p.length := by
        intro i hi
        exact hidx e (by simp) i (by rw [he2]; simp [hi])
      obtain ⟨hqwf, hqlen, hqmono, hqunited, hqEq⟩ :=
        unionList_spec hwf hi0 hrest R (hR e (by simp) i0 rest he2) hEq
      set q := rest.foldl (fun q2 ik => unionRoots q2 i0 ik) p with hq
      have hfold : unionAll (e :: cm) p = unionAll cm q := by
        unfold unionAll
        rw [List.foldl_cons, he2]
      rw [hfold]
      have hidx' : ∀ e' ∈ cm, ∀ i ∈ e'.2, i < q.length := by
        intro e' he' i hi
        rw [hqlen]
        exact hidx e' (by simp [he']) i hi
      obtain ⟨hwf2, hlen2, hmono2, hunited2, hEq2⟩ :=
        ih hqwf hidx' R (fun e' he' => hR e' (by simp [he'])) hqEq
      refine ⟨hwf2, by rw [hlen2, hqlen], ?_, ?_, hEq2⟩
      · intro a b h
        exact hmono2 a b (hqmono a b h)
      · intro e' he' i hi j hj
        rcases List.mem_cons.mp he' with rfl | he''
        · rw [he2] at hi hj
          have hqi : rootD q i = rootD q i0 := by
            rcases List.mem_cons.mp hi with rfl | hi'
            · rfl
            · exact hqunited i hi'
          have hqj : rootD q j = rootD q i0 := by
            rcases List.mem_cons.mp hj with rfl | hj'
            · rfl
            · exact hqunited j hj'
          exact hmono2 i j (hqi.trans hqj.symm)
        · exact hunited2 e' he'' i hi j hj

/-- On a symmetric relation, equivalence-closure chains are reflexive-transitive
chains. -/
lemma eqvGen_to_rtg {R : Nat → Nat → Prop} (hsym : ∀ a b, R a b → R b a) {a b : Nat}
    (h : Relation.EqvGen R a b) : Relation.ReflTransGen R a b := by
  induction h with
  | rel a b hr => exact Relation.ReflTransGen.single hr
  | refl a => exact Relation.ReflTransGen.refl
  | symm a b hab ihab =>
    have hs : Symmetric R := fun x y hxy => hsym x y hxy
    exact (Relation.ReflTransGen.symmetric hs) ihab
  | trans a b c hab hbc ih1 ih2 => exact ih1.trans ih2

lemma addIdx_mono {m : List (Key × List Nat)} {k : Key} {i : Nat} {k' : Key} {i' : Nat}
    (h : memIdx m k' i') : memIdx (addIdx m k i) k' i' := by
  obtain ⟨e, hem, hek, hie⟩ := h
  unfold addIdx
  split_ifs with hany
  · refine ⟨if e.1 = k then (e.1, e.2 ++ [i]) else e, List.mem_map_of_mem _ hem, ?_⟩
    by_cases hke : e.1 = k
    · rw [if_pos hke]
      exact ⟨hek, List.mem_append_left _ hie⟩
    · rw [if_neg hke]
      exact ⟨hek, hie⟩
  · exact ⟨e, List.mem_append_left _ hem, hek, hie⟩

lemma addIdx_self {m : List (Key × List Nat)} {k : Key} {i : Nat} :
    memIdx (addIdx m k i) k i := by
  unfold addIdx
  split_ifs with hany
  · rw [List.any_eq_true] at hany
    obtain ⟨e0, he0, he0k⟩ := hany
    have he0k' : e0.1 = k := of_decide_eq_true he0k
    refine ⟨(e0.1, e0.2 ++ [i]), ?_, he0k', by simp⟩
    have he : (if e0.1 = k then (e0.1, e0.2 ++ [i]) else e0) = (e0.1, e0.2 ++ [i]) :=
      if_pos he0k'
    rw [← he]
    exact List.mem_map_of_mem _ he0
  · exact ⟨(k, [i]), by simp, rfl, by simp⟩

lemma addIdx_sound {Q : Key → Nat → Prop} {m : List (Key × List Nat)} {k : Key} {i : Nat}
    (hm : ∀ e ∈ m, ∀ i' ∈ e.2, Q e.1 i') (hk : Q k i) :
    ∀ e ∈ addIdx m k i, ∀ i' ∈ e.2, Q e.1 i' := by
  intro e he i' hi'
  unfold addIdx at he
  split_ifs at he with hany
  · rw [List.mem_map] at he
    obtain ⟨e0, he0, hfe⟩ := he
    by_cases hke : e0.1 = k
    · rw [if_pos hke] at hfe
      rw [← hfe] at hi' ⊢
      rcases List.mem_append.mp hi' with h | h
      · exact hm e0 he0 i' h
      · have h' : i' = i := List.mem_singleton.mp h
        rw [h', hke]
        exact hk
    · rw [if_neg hke] at hfe
      rw [← hfe] at hi' ⊢
      exact hm e0 he0 i' hi'
  · rcases List.mem_append.mp he with h | h
    · exact hm e h i' hi'
    · have h' : e = (k, [i]) := List.mem_singleton.mp h
      rw [h'] at hi' ⊢
      have hii : i' = i := List.mem_singleton.mp hi'
      rw [hii]
      exact hk

lemma addIdx_keys_nodup {m : List (Key × List Nat)} {k : Key} {i : Nat}
    (h : (m.map (·.1)).Nodup) : ((addIdx m k i).map (·.1)).Nodup := by
  unfold addIdx
  split_ifs with hany
  · have he : (m.map fun p => if p.1 = k then (p.1, p.2 ++ [i]) else p).map (·.1)
        = m.map (·.1) := by
      rw [List.map_map]
      apply List.map_congr_left
      intro p _
      by_cases hpk : p.1 = k
      · simp [hpk]
      · simp [hpk]
    rw [he]
    exact h
  · rw [List.map_append]
    simp only [List.any_eq_true, decide_eq_true_eq, not_exists, not_and] at hany
    rw [List.nodup_append]
    refine ⟨h, by simp, ?_⟩
    intro x hx
    rw [List.mem_map] at hx
    obtain ⟨p, hp, hpx⟩ := hx
    simp only [List.map_cons, List.map_nil, List.mem_singleton]
    intro hxk
    exact hany p hp (hpx.trans hxk)

lemma cellsFold_mono {l : List Key} {i : Nat} {m : List (Key × List Nat)} {k' : Key}
    {i' : Nat} (h : memIdx m k' i') :
    memIdx (l.foldl (fun m2 k2 => addIdx m2 k2 i) m) k' i' := by
  refine @foldl_invariant _ _ (fun m2 => memIdx m2 k' i') _ _ _ ?_ h
  intro m2 k2 _ hm2
  exact addIdx_mono hm2

lemma cellsFold_self {l : List Key} {i : Nat} {m : List (Key × List Nat)} {k : Key}
    (hk : k ∈ l) : memIdx (l.foldl (fun m2 k2 => addIdx m2 k2 i) m) k i := by
  induction l generalizing m with
  | nil => exact absurd hk (List.not_mem_nil k)
  | cons k2 l ih =>
    rw [List.foldl_cons]
    rcases List.mem_cons.mp hk with rfl | hk'
    · exact cellsFold_mono addIdx_self
    · exact ih hk'

lemma cellsFold_sound {Q : Key → Nat → Prop} {l : List Key} {i : Nat}
    {m : List (Key × List Nat)} (hm : ∀ e ∈ m, ∀ i' ∈ e.2, Q e.1 i')
    (hl : ∀ k ∈ l, Q k i) :
    ∀ e ∈ l.foldl (fun m2 k2 => addIdx m2 k2 i) m, ∀ i' ∈ e.2, Q e.1 i' := by
  induction l generalizing m with
  | nil => exact hm
  | cons k2 l ih =>
    rw [List.foldl_cons]
    exact ih (addIdx_sound hm (hl k2 (by simp))) (fun k hk => hl k (by simp [hk]))

lemma cellsFold_keys_nodup {l : List Key} {i : Nat} {m : List (Key × List Nat)}
    (h : (m.map (·.1)).Nodup) :
    ((l.foldl (fun m2 k2 => addIdx m2 k2 i) m).map (·.1)).Nodup := by
  refine @foldl_invariant _ _
    (fun m2 : List (Key × List Nat) => (m2.map (fun p => p.1)).Nodup) _ _ _ ?_ h
  intro m2 k2 _ hm2
  exact addIdx_keys_nodup hm2

lemma buildFold_mono {l : List (Nat × Constraint)} {m : List (Key × List Nat)} {k' : Key}
    {i' : Nat} (h : memIdx m k' i') :
    memIdx (l.foldl (fun m2 ic => ic.2.cells.foldl (fun m3 k => addIdx m3 k ic.1) m2) m)
      k' i' := by
  refine @foldl_invariant _ _ (fun m2 => memIdx m2 k' i') _ _ _ ?_ h
  intro m2 ic _ hm2
  exact cellsFold_mono hm2

lemma buildFold_complete {l : List (Nat × Constraint)} {m : List (Key × List Nat)} :
    ∀ ic ∈ l, ∀ k ∈ ic.2.cells,
      memIdx (l.foldl (fun m2 ic => ic.2.cells.foldl (fun m3 k => addIdx m3 k ic.1) m2) m)
        k ic.1 := by
  induction l generalizing m with
  | nil => intro ic h; exact absurd h (List.not_mem_nil ic)
  | cons jc l ih =>
    intro ic hic k hk
    rw [List.foldl_cons]
    rcases List.mem_cons.mp hic with rfl | hic'
    · exact buildFold_mono (cellsFold_self hk)
    · exact ih ic hic' k hk

lemma buildCellMap_keys_nodup (cs : List Constraint) :
    ((buildCellMap cs).map (·.1)).Nodup := by
  unfold buildCellMap
  have hgen : ∀ (l : List (Nat × Constraint)) (m : List (Key × List Nat)),
      (m.map (fun p => p.1)).Nodup →
      ((l.foldl (fun m2 ic => ic.2.cells.foldl (fun m3 k => addIdx m3 k ic.1) m2) m).map
        (fun p => p.1)).Nodup := by
    intro l
    induction l with
    | nil => intro m hm; exact hm
    | cons ic l ih =>
      intro m hm
      rw [List.foldl_cons]
      exact ih _ (cellsFold_keys_nodup hm)
  exact hgen cs.enum [] List.nodup_nil

lemma buildCellMap_sound (cs : List Constraint) :
    ∀ e ∈ buildCellMap cs, ∀ i ∈ e.2,
      i < cs.length ∧ e.1 ∈ (cs.getD i default).cells := by
  unfold buildCellMap
  have hgen : ∀ (l : List (Nat × Constraint)) (m : List (Key × List Nat)),
      (∀ e ∈ m, ∀ i ∈ e.2, i < cs.length ∧ e.1 ∈ (cs.getD i default).cells) →
      (∀ ic ∈ l, ic.1 < cs.length ∧ cs.getD ic.1 default = ic.2) →
      ∀ e ∈ l.foldl (fun m2 ic => ic.2.cells.foldl (fun m3 k => addIdx m3 k ic.1) m2) m,
        ∀ i ∈ e.2, i < cs.length ∧ e.1 ∈ (cs.getD i default).cells := by
    intro l
    induction l with
    | nil => intro m hm _; exact hm
    | cons ic l ih =>
      intro m hm hl
      rw [List.foldl_cons]
      refine ih _ ?_ (fun jc hjc => hl jc (by simp [hjc]))
      refine @cellsFold_sound
        (fun k i => i < cs.length ∧ k ∈ (cs.getD i default).cells) _ _ _ hm ?_
      intro k hk
      obtain ⟨hlt, hget⟩ := hl ic (by simp)
      exact ⟨hlt, by rw [hget]; exact hk⟩
  refine hgen cs.enum [] (by simp) ?_
  intro ic hic
  rw [List.mem_enum_iff_getElem?] at hic
  have hlt : ic.1 < cs.length := by
    by_contra hge
    rw [List.getElem?_eq_none (Nat.le_of_not_lt hge)] at hic
    exact Option.noConfusion hic
  refine ⟨hlt, ?_⟩
  rw [List.getD, List.get?_eq_getElem?, hic]
  rfl

lemma buildCellMap_complete (cs : List Constraint) {i : Nat} (hi : i < cs.length)
    {k : Key} (hk : k ∈ (cs.getD i default).cells) :
    memIdx (buildCellMap cs) k i := by
  unfold buildCellMap
  have hic : (i, cs.getD i default) ∈ cs.enum := by
    rw [List.mem_enum_iff_getElem?]
    rw [List.getD, List.get?_eq_getElem?, List.getElem?_eq_getElem hi]
    rfl
  exact buildFold_complete (i, cs.getD i default) hic k hk

lemma addGroup_mono {gm : List (Nat × List Constraint)} {r : Nat} {c : Constraint}
    {r' : Nat} {c' : Constraint} (h : memG gm r' c') : memG (addGroup gm r c) r' c' := by
  obtain ⟨e, hem, hek, hie⟩ := h
  unfold addGroup
  split_ifs with hany
  · refine ⟨if e.1 = r then (e.1, e.2 ++ [c]) else e, List.mem_map_of_mem _ hem, ?_⟩
    by_cases hke : e.1 = r
    · rw [if_pos hke]
      exact ⟨hek, List.mem_append_left _ hie⟩
    · rw [if_neg hke]
      exact ⟨hek, hie⟩
  · exact ⟨e, List.mem_append_left _ hem, hek, hie⟩

lemma addGroup_self {gm : List (Nat × List Constraint)} {r : Nat} {c : Constraint} :
    memG (addGroup gm r c) r c := by
  unfold addGroup
  split_ifs with hany
  · rw [List.any_eq_true] at hany
    obtain ⟨e0, he0, he0k⟩ := hany
    have he0k' : e0.1 = r := of_decide_eq_true he0k
    refine ⟨(e0.1, e0.2 ++ [c]), ?_, he0k', by simp⟩
    have he : (if e0.1 = r then (e0.1, e0.2 ++ [c]) else e0) = (e0.1, e0.2 ++ [c]) :=
      if_pos he0k'
    rw [← he]
    exact List.mem_map_of_mem _ he0
  · exact ⟨(r, [c]), by simp, rfl, by simp⟩

lemma addGroup_sound {Q : Nat → Constraint → Prop} {gm : List (Nat × List Constraint)}
    {r : Nat} {c : Constraint} (hm : ∀ e ∈ gm, ∀ c' ∈ e.2, Q e.1 c') (hk : Q r c) :
    ∀ e ∈ addGroup gm r c, ∀ c' ∈ e.2, Q e.1 c' := by
  intro e he c' hc'
  unfold addGroup at he
  split_ifs at he with hany
  · rw [List.mem_map] at he
    obtain ⟨e0, he0, hfe⟩ := he
    by_cases hke : e0.1 = r
    · rw [if_pos hke] at hfe
      rw [← hfe] at hc' ⊢
      rcases List.mem_append.mp hc' with h | h
      · exact hm e0 he0 c' h
      · have h' : c' = c := List.mem_singleton.mp h
        rw [h', hke]
        exact hk
    · rw [if_neg hke] at hfe
      rw [← hfe] at hc' ⊢
      exact hm e0 he0 c' hc'
  · rcases List.mem_append.mp he with h | h
    · exact hm e h c' hc'
    · have h' : e = (r, [c]) := List.mem_singleton.mp h
      rw [h'] at hc' ⊢
      have hcc : c' = c := List.mem_singleton.mp hc'
      rw [hcc]
      exact hk

lemma addGroup_keys_nodup {gm : List (Nat × List Constraint)} {r : Nat} {c : Constraint}
    (h : (gm.map (fun p => p.1)).Nodup) : ((addGroup gm r c).map (fun p => p.1)).Nodup := by
  unfold addGroup
  split_ifs with hany
  · have he : (gm.map fun p => if p.1 = r then (p.1, p.2 ++ [c]) else p).map (fun p => p.1)
        = gm.map (fun p => p.1) := by
      rw [List.map_map]
      apply List.map_congr_left
      intro p _
      by_cases hpk : p.1 = r
      · simp [hpk]
      · simp [hpk]
    rw [he]
    exact h
  · rw [List.map_append]
    simp only [List.any_eq_true, decide_eq_true_eq, not_exists, not_and] at hany
    rw [List.nodup_append]
    refine ⟨h, by simp, ?_⟩
    intro x hx
    rw [List.mem_map] at hx
    obtain ⟨p, hp, hpx⟩ := hx
    simp only [List.map_cons, List.map_nil, List.mem_singleton]
    intro hxk
    exact hany p hp (hpx.trans hxk)

lemma map_if_eq_self {l : List (Nat × List Constraint)} {r : Nat} {c : Constraint}
    (h : ∀ p ∈ l, p.1 ≠ r) :
    l.map (fun p => if p.1 = r then (p.1, p.2 ++ [c]) else p) = l := by
  induction l with
  | nil => rfl
  | cons e l ih =>
    rw [List.map_cons, if_neg (h e (by simp)), ih (fun p hp => h p (by simp [hp]))]

lemma addGroup_update_perm {r : Nat} {c : Constraint} :
    ∀ {gm : List (Nat × List Constraint)}, (gm.map (fun p => p.1)).Nodup →
    gm.any (fun p => decide (p.1 = r)) = true →
    ((gm.map (fun p => if p.1 = r then (p.1, p.2 ++ [c]) else p)).map
      (fun p => p.2)).flatten.Perm ((gm.map (fun p => p.2)).flatten ++ [c]) := by
  intro gm
  induction gm with
  | nil => intro _ hany; simp at hany
  | cons e gm ih =>
    intro hnd hany
    rw [List.map_cons, List.nodup_cons] at hnd
    obtain ⟨hnd1, hnd2⟩ := hnd
    by_cases hek : e.1 = r
    · rw [List.map_cons, if_pos hek]
      have htail : ∀ p ∈ gm, p.1 ≠ r := by
        intro p hp he'
        exact hnd1 (List.mem_map.mpr ⟨p, hp, he'.trans hek.symm⟩)
      rw [map_if_eq_self htail, List.map_cons, List.flatten_cons, List.map_cons,
        List.flatten_cons, List.append_assoc, List.append_assoc]
      exact List.Perm.append_left e.2 List.perm_append_comm
    · rw [List.map_cons, if_neg hek, List.map_cons, List.flatten_cons, List.map_cons,
        List.flatten_cons]
      have hany' : gm.any (fun p => decide (p.1 = r)) = true := by
        rw [List.any_cons] at hany
        have hdf : (decide (e.1 = r)) = false := decide_eq_false hek
        rw [hdf, Bool.false_or] at hany
        exact hany
      refine ((ih hnd2 hany').append_left e.2).trans ?_
      rw [← List.append_assoc]

lemma addGroup_flatten_perm {gm : List (Nat × List Constraint)} {r : Nat} {c : Constraint}
    (hnd : (gm.map (fun p => p.1)).Nodup) :
    ((addGroup gm r c).map (fun p => p.2)).flatten.Perm
      ((gm.map (fun p => p.2)).flatten ++ [c]) := by
  unfold addGroup
  split_ifs with hany
  · exact addGroup_update_perm hnd hany
  · rw [List.map_append, List.flatten_append]
    simp

/-- Entries of a nodup-keyed map with a common key agree. -/
lemma memG_same_entry {gm : List (Nat × List Constraint)}
    (hnd : (gm.map (fun p => p.1)).Nodup) {r : Nat} {c1 c2 : Constraint}
    (h1 : memG gm r c1) (h2 : memG gm r c2) :
    ∃ e ∈ gm, e.1 = r ∧ c1 ∈ e.2 ∧ c2 ∈ e.2 := by
  obtain ⟨e, he, hek, hc1⟩ := h1
  obtain ⟨e', he', hek', hc2⟩ := h2
  suffices hee : e = e' by
    exact ⟨e, he, hek, hc1, hee ▸ hc2⟩
  induction gm with
  | nil => exact absurd he (List.not_mem_nil e)
  | cons g gm ih =>
    rw [List.map_cons, List.nodup_cons] at hnd
    obtain ⟨hnd1, hnd2⟩ := hnd
    rcases List.mem_cons.mp he with rfl | he0
    · rcases List.mem_cons.mp he' with rfl | he0'
      · rfl
      · exact absurd (List.mem_map.mpr ⟨e', he0', hek'.trans hek.symm⟩) hnd1
    · rcases List.mem_cons.mp he' with rfl | he0'
      · exact absurd (List.mem_map.mpr ⟨e, he0, hek.trans hek'.symm⟩) hnd1
      · exact ih hnd2 he0 he0'

/-- Characterization of the grouping fold of `groupByRoot`: keys stay nodup,
the grouped constraints are exactly the accumulated ones, every processed
constraint lands in the entry keyed by its union-find root (which path
compression never changes), and entries only hold processed constraints. -/
lemma groupFold_spec (p0 : List Nat) (Q : Nat → Constraint → Prop) :
    ∀ (l : List (Nat × Constraint)) (gm : List (Nat × List Constraint)) (q : List Nat),
    WFP q → (∀ z, rootD q z = rootD p0 z) →
    (∀ ic ∈ l, Q ic.1 ic.2) →
    (gm.map (fun p => p.1)).Nodup →
    (∀ e ∈ gm, ∀ c ∈ e.2, ∃ i, rootD p0 i = e.1 ∧ Q i c) →
    (((l.foldl
        (fun (acc : List (Nat × List Constraint) × List Nat) ic =>
          let f := findRoot acc.2 acc.2.length ic.1
          (addGroup acc.1 f.2 ic.2, f.1))
        (gm, q)).1.map (fun p => p.1)).Nodup) ∧
    ((l.foldl
        (fun (acc : List (Nat × List Constraint) × List Nat) ic =>
          let f := findRoot acc.2 acc.2.length ic.1
          (addGroup acc.1 f.2 ic.2, f.1))
        (gm, q)).1.map (fun p => p.2)).flatten.Perm
      ((gm.map (fun p => p.2)).flatten ++ l.map (fun ic => ic.2)) ∧
    (∀ r c, memG gm r c → memG
      (l.foldl
        (fun (acc : List (Nat × List Constraint) × List Nat) ic =>
          let f := findRoot acc.2 acc.2.length ic.1
          (addGroup acc.1 f.2 ic.2, f.1))
        (gm, q)).1 r c) ∧
    (∀ ic ∈ l, memG
      (l.foldl
        (fun (acc : List (Nat × List Constraint) × List Nat) ic =>
          let f := findRoot acc.2 acc.2.length ic.1
          (addGroup acc.1 f.2 ic.2, f.1))
        (gm, q)).1 (rootD p0 ic.1) ic.2) ∧
    (∀ e ∈ (l.foldl
        (fun (acc : List (Nat × List Constraint) × List Nat) ic =>
          let f := findRoot acc.2 acc.2.length ic.1
          (addGroup acc.1 f.2 ic.2, f.1))
        (gm, q)).1, ∀ c ∈ e.2, ∃ i, rootD p0 i = e.1 ∧ Q i c) := by
  intro l
  induction l with
  | nil =>
    intro gm q _ _ _ hnd hsound
    refine ⟨hnd, by simp, fun r c h => h, by simp, hsound⟩
  | cons ic l ih =>
    intro gm q hqwf hqroots hl hnd hsound
    obtain ⟨hf2, hfwf, hflen, hfroots⟩ :=
      findRoot_spec hqwf q.length ic.1 ⟨q.length, le_refl _, rootD_isRoot hqwf ic.1⟩
    set fr := findRoot q q.length ic.1 with hfr
    have hstep : ((ic :: l).foldl
        (fun (acc : List (Nat × List Constraint) × List Nat) ic =>
          let f := findRoot acc.2 acc.2.length ic.1
          (addGroup acc.1 f.2 ic.2, f.1))
        (gm, q)) = (l.foldl
        (fun (acc : List (Nat × List Constraint) × List Nat) ic =>
          let f := findRoot acc.2 acc.2.length ic.1
          (addGroup acc.1 f.2 ic.2, f.1))
        (addGroup gm fr.2 ic.2, fr.1)) := rfl
    rw [hstep]
    have hfr2 : fr.2 = rootD p0 ic.1 := by rw [hf2, hqroots]
    have hfroots' : ∀ z, rootD fr.1 z = rootD p0 z := by
      intro z
      rw [hfroots, hqroots]
    have hnd' : ((addGroup gm fr.2 ic.2).map (fun p => p.1)).Nodup :=
      addGroup_keys_nodup hnd
    have hsound' : ∀ e ∈ addGroup gm fr.2 ic.2, ∀ c ∈ e.2,
        ∃ i, rootD p0 i = e.1 ∧ Q i c := by
      refine @addGroup_sound (fun r c => ∃ i, rootD p0 i = r ∧ Q i c) _ _ _ hsound ?_
      exact ⟨ic.1, hfr2.symm, hl ic (by simp)⟩
    obtain ⟨nd2, perm2, mono2, compl2, sound2⟩ :=
      ih (addGroup gm fr.2 ic.2) fr.1 hfwf hfroots'
        (fun jc hjc => hl jc (by simp [hjc])) hnd' hsound'
    refine ⟨nd2, ?_, ?_, ?_, sound2⟩
    · refine perm2.trans ?_
      refine ((addGroup_flatten_perm hnd).append_right _).trans ?_
      rw [List.append_assoc]
      simp
    · intro r c h
      exact mono2 r c (addGroup_mono h)
    · intro jc hjc
      rcases List.mem_cons.mp hjc with rfl | hjc'
      · have h0 : memG (addGroup gm fr.2 jc.2) (rootD p0 jc.1) jc.2 := by
          rw [← hfr2]
          exact addGroup_self
        exact mono2 _ _ h0
      · exact compl2 jc hjc'

lemma shareIdx_symm {cs : List Constraint} {i j : Nat} (h : shareIdx cs i j) :
    shareIdx cs j i := by
  obtain ⟨hi, hj, k, hk1, hk2⟩ := h
  exact ⟨hj, hi, k, hk2, hk1⟩

lemma range_parent_facts (n : Nat) :
    WFP (List.range n) ∧ ∀ x, rootD (List.range n) x = x := by
  have hroot : ∀ x, isRootP (List.range n) x := by
    intro x
    unfold isRootP stepP
    by_cases hx : x < n
    · rw [List.getD_eq_getElem _ _ (by rw [List.length_range]; exact hx)]
      exact List.getElem_range _ _
    · rw [List.getD_eq_default]
      rw [List.length_range]
      omega
  refine ⟨⟨?_, fun x => ⟨0, hroot x⟩⟩, fun x => rootD_of_root (hroot x)⟩
  intro y hy
  rw [List.length_range]
  exact List.mem_range.mp hy

lemma memIdx_same_entry {m : List (Key × List Nat)}
    (hnd : (m.map (fun p => p.1)).Nodup) {k : Key} {i j : Nat}
    (h1 : memIdx m k i) (h2 : memIdx m k j) :
    ∃ e ∈ m, e.1 = k ∧ i ∈ e.2 ∧ j ∈ e.2 := by
  obtain ⟨e, he, hek, hie⟩ := h1
  obtain ⟨e', he', hek', hje⟩ := h2
  suffices hee : e = e' by
    exact ⟨e, he, hek, hie, hee ▸ hje⟩
  induction m with
  | nil => exact absurd he (List.not_mem_nil e)
  | cons g m ih =>
    rw [List.map_cons, List.nodup_cons] at hnd
    obtain ⟨hnd1, hnd2⟩ := hnd
    rcases List.mem_cons.mp he with rfl | he0
    · rcases List.mem_cons.mp he' with rfl | he0'
      · rfl
      · exact absurd (List.mem_map.mpr ⟨e', he0', hek'.trans hek.symm⟩) hnd1
    · rcases List.mem_cons.mp he' with rfl | he0'
      · exact absurd (List.mem_map.mpr ⟨e, he0, hek.trans hek'.symm⟩) hnd1
      · exact ih hnd2 he0 he0'

lemma mem_enum_facts {cs : List Constraint} {ic : Nat × Constraint} (hic : ic ∈ cs.enum) :
    ic.1 < cs.length ∧ cs.getD ic.1 default = ic.2 := by
  rw [List.mem_enum_iff_getElem?] at hic
  have hlt : ic.1 < cs.length := by
    by_contra hge
    rw [List.getElem?_eq_none (Nat.le_of_not_lt hge)] at hic
    exact Option.noConfusion hic
  refine ⟨hlt, ?_⟩
  rw [List.getD, List.get?_eq_getElem?, hic]
  rfl

lemma enum_mem_of_mem {cs : List Constraint} {c : Constraint} (hc : c ∈ cs) :
    ∃ i, i < cs.length ∧ cs.getD i default = c ∧ (i, c) ∈ cs.enum := by
  obtain ⟨i, hi, hget⟩ := List.mem_iff_getElem.mp hc
  refine ⟨i, hi, ?_, ?_⟩
  · rw [List.getD, List.get?_eq_getElem?, List.getElem?_eq_getElem hi, hget]
    rfl
  · rw [List.mem_enum_iff_getElem?, List.getElem?_eq_getElem hi, hget]

/-- `groupByRoot` over a well-formed parent array: distinct root keys, group
contents a permutation of the input, every constraint grouped under its root,
and groups only hold constraints whose root is the group key. -/
lemma groupByRoot_spec (cs : List Constraint) {p0 : List Nat} (hwf : WFP p0) :
    ((groupByRoot cs p0).map (fun p => p.1)).Nodup ∧
    ((groupByRoot cs p0).map (fun p => p.2)).flatten.Perm cs ∧
    (∀ ic ∈ cs.enum, memG (groupByRoot cs p0) (rootD p0 ic.1) ic.2) ∧
    (∀ e ∈ groupByRoot cs p0, ∀ c ∈ e.2,
      ∃ i, rootD p0 i = e.1 ∧ i < cs.length ∧ cs.getD i default = c) := by
  obtain ⟨h1, h2, _h3, h4, h5⟩ :=
    groupFold_spec p0 (fun i c => i < cs.length ∧ cs.getD i default = c)
      cs.enum [] p0 hwf (fun z => rfl) (fun ic hic => mem_enum_facts hic)
      (by simp) (by simp)
  refine ⟨h1, ?_, h4, h5⟩
  refine h2.trans ?_
  have he : cs.enum.map (fun ic => ic.2) = cs := List.enum_map_snd cs
  rw [he]
  simp

/-- The combined facts about `partitionConstraints`: exact partition, sharing
constraints grouped together, groups chain-connected, and groups pairwise
cell-disjoint. -/
lemma partition_facts (cs : List Constraint) :
    (partitionConstraints cs).flatten.Perm cs ∧
    (∀ c1 ∈ cs, ∀ c2 ∈ cs, sharesCell c1 c2 →
      ∃ g ∈ partitionConstraints cs, c1 ∈ g ∧ c2 ∈ g) ∧
    (∀ g ∈ partitionConstraints cs, ∀ c1 ∈ g, ∀ c2 ∈ g, chainConnected cs c1 c2) ∧
    (partitionConstraints cs).Pairwise
      (fun g1 g2 => ∀ k, k ∈ groupCellsOf g1 → k ∉ groupCellsOf g2) := by
  by_cases hcs : cs = []
  · subst hcs
    refine ⟨by simp [partitionConstraints], ?_, ?_, ?_⟩
    · intro c1 h
      exact absurd h (List.not_mem_nil c1)
    · intro g hg
      rw [partitionConstraints] at hg
      simp at hg
    · rw [partitionConstraints]
      simp
  · obtain ⟨hwfR, hrootR⟩ := range_parent_facts cs.length
    have hcmsound := buildCellMap_sound cs
    have hcmnd := buildCellMap_keys_nodup cs
    have hidx : ∀ e ∈ buildCellMap cs, ∀ i ∈ e.2, i < (List.range cs.length).length := by
      intro e he i hi
      rw [List.length_range]
      exact (hcmsound e he i hi).1
    have hR : ∀ e ∈ buildCellMap cs, ∀ i0 rest, e.2 = i0 :: rest →
        ∀ i ∈ rest, shareIdx cs i0 i := by
      intro e he i0 rest he2 i hi
      have h0 := hcmsound e he i0 (by rw [he2]; simp)
      have h1 := hcmsound e he i (by rw [he2]; simp [hi])
      exact ⟨h0.1, h1.1, e.1, h0.2, h1.2⟩
    have hEq0 : ∀ z, Relation.EqvGen (shareIdx cs) z (rootD (List.range cs.length) z) := by
      intro z
      rw [hrootR z]
      exact Relation.EqvGen.refl z
    obtain ⟨hwfU, hlenU, hmonoU, hunitedU, hEqU⟩ :=
      unionAll_spec hwfR hidx (shareIdx cs) hR hEq0
    set p0 := unionAll (buildCellMap cs) (List.range cs.length) with hp0
    have hshare_root : ∀ i j, shareIdx cs i j → rootD p0 i = rootD p0 j := by
      intro i j hij
      obtain ⟨hi, hj, k, hki, hkj⟩ := hij
      have hmi : memIdx (buildCellMap cs) k i := buildCellMap_complete cs hi hki
      have hmj : memIdx (buildCellMap cs) k j := buildCellMap_complete cs hj hkj
      obtain ⟨e, he, _hek, hie, hje⟩ := memIdx_same_entry hcmnd hmi hmj
      exact hunitedU e he i hie j hje
    obtain ⟨hndG, hpermG, hcompG, hsoundG⟩ := groupByRoot_spec cs hwfU
    have hpart : partitionConstraints cs = (groupByRoot cs p0).map (fun p => p.2) := by
      rw [partitionConstraints, if_neg hcs]
    refine ⟨?_, ?_, ?_, ?_⟩
    · rw [hpart]
      exact hpermG
    · intro c1 hc1 c2 hc2 hshare
      obtain ⟨i1, hi1, hget1, henum1⟩ := enum_mem_of_mem hc1
      obtain ⟨i2, hi2, hget2, henum2⟩ := enum_mem_of_mem hc2
      have hsi : shareIdx cs i1 i2 := by
        refine ⟨hi1, hi2, ?_⟩
        rw [hget1, hget2]
        exact hshare
      have hroots : rootD p0 i1 = rootD p0 i2 := hshare_root i1 i2 hsi
      have hm1 : memG (groupByRoot cs p0) (rootD p0 i1) c1 := hcompG (i1, c1) henum1
      have hm2 : memG (groupByRoot cs p0) (rootD p0 i1) c2 := by
        rw [hroots]
        exact hcompG (i2, c2) henum2
      obtain ⟨e, he, _hek, hc1e, hc2e⟩ := memG_same_entry hndG hm1 hm2
      refine ⟨e.2, ?_, hc1e, hc2e⟩
      rw [hpart]
      exact List.mem_map_of_mem _ he
    · intro g hg c1 hc1 c2 hc2
      rw [hpart, List.mem_map] at hg
      obtain ⟨e, he, hge⟩ := hg
      rw [← hge] at hc1 hc2
      obtain ⟨i1, hr1, hlt1, hget1⟩ := hsoundG e he c1 hc1
      obtain ⟨i2, hr2, hlt2, hget2⟩ := hsoundG e he c2 hc2
      have hchain : Relation.EqvGen (shareIdx cs) i1 i2 := by
        have e1 := hEqU i1
        have e2 := hEqU i2
        rw [hr1] at e1
        rw [hr2] at e2
        exact e1.trans _ _ _ (e2.symm _ _)
      have hrtg := eqvGen_to_rtg (fun a b h => shareIdx_symm h) hchain
      have hlift : Relation.ReflTransGen (chainRel cs)
          (cs.getD i1 default) (cs.getD i2 default) := by
        refine Relation.ReflTransGen.lift (fun i => cs.getD i default) ?_ hrtg
        intro a b hab
        obtain ⟨hlta, hltb, hs⟩ := hab
        refine ⟨?_, ?_, hs⟩
        · show cs.getD a default ∈ cs
          rw [List.getD_eq_getElem _ _ hlta]
          exact List.getElem_mem hlta
        · show cs.getD b default ∈ cs
          rw [List.getD_eq_getElem _ _ hltb]
          exact List.getElem_mem hltb
      rw [hget1, hget2] at hlift
      exact hlift
    · rw [hpart]
      refine List.pairwise_map.mpr ?_
      have hpw : (groupByRoot cs p0).Pairwise (fun e1 e2 => e1.1 ≠ e2.1) :=
        List.pairwise_map.mp hndG
      refine hpw.imp_of_mem ?_
      intro e1 e2 he1 he2 hne k hk1 hk2
      rcases (mem_groupCellsOf e1.2 k).mp hk1 with ⟨c, hc, hkc⟩
      rcases (mem_groupCellsOf e2.2 k).mp hk2 with ⟨c', hc', hkc'⟩
      obtain ⟨i1, hr1, hlt1, hget1⟩ := hsoundG e1 he1 c hc
      obtain ⟨i2, hr2, hlt2, hget2⟩ := hsoundG e2 he2 c' hc'
      have hsi : shareIdx cs i1 i2 := by
        refine ⟨hlt1, hlt2, k, ?_, ?_⟩
        · rw [hget1]; exact hkc
        · rw [hget2]; exact hkc'
      exact hne ((hr1.symm.trans (hshare_root i1 i2 hsi)).trans hr2)

/-- C8: for every non-empty constraint list with non-empty cell sets,
`partitionConstraints` returns an exact partition of the list (the groups
flatten to a permutation of the input, so every constraint occurrence lies in
exactly one group), any two constraints sharing a cell land in a common group,
and any two constraints of one group are connected by a chain of constraints
that pairwise share cells. -/
theorem C8_partition_correct (cs : List Constraint) (_hne : cs ≠ [])
    (_hcells : ∀ c ∈ cs, c.cells ≠ []) :
    (partitionConstraints cs).flatten.Perm cs ∧
    (∀ c1 ∈ cs, ∀ c2 ∈ cs, sharesCell c1 c2 →
      ∃ g ∈ partitionConstraints cs, c1 ∈ g ∧ c2 ∈ g) ∧
    (∀ g ∈ partitionConstraints cs, ∀ c1 ∈ g, ∀ c2 ∈ g, chainConnected cs c1 c2) := by
  obtain ⟨h1, h2, h3, _⟩ := partition_facts cs
  exact ⟨h1, h2, h3⟩

theorem C8_witness :
    (csC8 ≠ [] ∧ ∀ c ∈ csC8, c.cells ≠ []) ∧
    ((partitionConstraints csC8).flatten.Perm csC8 ∧
      (∀ c1 ∈ csC8, ∀ c2 ∈ csC8, sharesCell c1 c2 →
        ∃ g ∈ partitionConstraints csC8, c1 ∈ g ∧ c2 ∈ g) ∧
      (∀ g ∈ partitionConstraints csC8, ∀ c1 ∈ g, ∀ c2 ∈ g, chainConnected csC8 c1 c2)) :=
  ⟨⟨by decide, by decide⟩, C8_partition_correct csC8 (by decide) (by decide)⟩

lemma fold_setEntry_const {l : List Key} {k : Key} {v : ℚ} (hk : k ∈ l) (r0 : PMap) :
    lookupEntry (l.foldl (fun r k2 => setEntry r k2 v) r0) k = some v := by
  induction l generalizing r0 with
  | nil => exact absurd hk (List.not_mem_nil k)
  | cons k2 l ih =>
    rw [List.foldl_cons]
    by_cases hkl : k ∈ l
    · exact ih hkl _
    · have hk2 : k = k2 := by
        rcases List.mem_cons.mp hk with h | h
        · exact h
        · exact absurd h hkl
      refine @foldl_invariant _ _ (fun r : PMap => lookupEntry r k = some v) _ _ _ ?_ ?_
      · intro r k3 hk3 hinv
        rw [lookup_setEntry_ne _ _ (fun he => hkl (by rw [he]; exact hk3))]
        exact hinv
      · rw [hk2]
        exact lookup_setEntry_self _ _ _

lemma fold_set_preserve_notmem {l : List Key} {k : Key} (hk : k ∉ l) (w : ℚ) (r0 : PMap) :
    lookupEntry (l.foldl (fun r k2 => setEntry r k2 w) r0) k = lookupEntry r0 k := by
  refine @foldl_invariant _ _ (fun r : PMap => lookupEntry r k = lookupEntry r0 k) _ _ _ ?_ rfl
  intro r k2 hk2 hinv
  rw [lookup_setEntry_ne _ _ (fun he => hk (by rw [he]; exact hk2))]
  exact hinv

lemma fold_guard_preserve {l : List Key} {k : Key} {v : ℚ} {w : ℚ} {r0 : PMap}
    (h : lookupEntry r0 k = some v) :
    lookupEntry
      (l.foldl (fun r k2 => if lookupEntry r k2 = none then setEntry r k2 w else r) r0) k
      = some v := by
  refine @foldl_invariant _ _ (fun r : PMap => lookupEntry r k = some v) _ _ _ ?_ h
  intro r k2 _ hinv
  by_cases hk2 : k2 = k
  · rw [hk2, if_neg (by rw [hinv]; exact fun hc => Option.noConfusion hc)]
    exact hinv
  · split_ifs with hc
    · rw [lookup_setEntry_ne _ _ (fun he => hk2 he.symm)]
      exact hinv
    · exact hinv

lemma processGroup_preserve {g : List Constraint} {k : Key} (hk : k ∉ groupCellsOf g)
    (r : PMap) : lookupEntry (processGroup r g) k = lookupEntry r k := by
  unfold processGroup
  dsimp only
  split_ifs with h1 h2 h3
  · refine @foldl_invariant _ _ (fun r2 : PMap => lookupEntry r2 k = lookupEntry r k)
      _ _ _ ?_ rfl
    intro r2 k2 hk2 hinv
    rw [lookup_setEntry_ne _ _ (fun he => hk (by rw [he]; exact hk2))]
    exact hinv
  · refine @foldl_invariant _ _ (fun r2 : PMap => lookupEntry r2 k = lookupEntry r k)
      _ _ _ ?_ rfl
    intro r2 k2 hk2 hinv
    rw [lookup_setEntry_ne _ _ (fun he => hk (by rw [he]; exact hk2))]
    exact hinv
  · refine @foldl_invariant _ _ (fun r2 : PMap => lookupEntry r2 k = lookupEntry r k)
      _ _ _ ?_ rfl
    intro r2 k2 hk2 hinv
    dsimp only
    split_ifs with h4 h5
    · rw [lookup_setEntry_ne _ _ (fun he => hk (by rw [he]; exact hk2))]
      exact hinv
    · rw [lookup_setEntry_ne _ _ (fun he => hk (by rw [he]; exact hk2))]
      exact hinv
    · exact hinv
  · rfl

lemma solveConstraints_of_no_sat {cells : List Key} {g : List Constraint}
    (hn : cells.length ≤ 20) (hzero : satMasks cells g = []) :
    solveConstraints cells g = [] := by
  have hfalse : ∀ mask ∈ List.range (2 ^ cells.length),
      ¬(satisfiesAll cells g mask = true) := by
    intro mask hm
    exact List.filter_eq_nil_iff.mp hzero mask hm
  have hcap : ¬(1048576 < 2 ^ cells.length) := by
    rw [not_lt]
    calc 2 ^ cells.length ≤ 2 ^ 20 := Nat.pow_le_pow_right (by norm_num) hn
      _ = 1048576 := by norm_num
  unfold solveConstraints
  dsimp only
  rw [if_neg hcap]
  refine foldl_fixed _ _ _ ?_
  intro mask hm
  dsimp only
  split_ifs with hc1 hc2
  · rfl
  · exact absurd hc2 (hfalse mask hm)
  · rfl

lemma processGroup_zero_half {g : List Constraint}
    (hn : 0 < (groupCellsOf g).length ∧ (groupCellsOf g).length ≤ 20)
    (hzero : solveConstraints (groupCellsOf g) g = []) :
    ∀ k ∈ groupCellsOf g, ∀ r, lookupEntry (processGroup r g) k = some (1 / 2) := by
  intro k hk r
  unfold processGroup
  dsimp only
  rw [if_pos hn, if_neg (fun hne => hne hzero)]
  exact fold_setEntry_const hk r

/-- The value a group's solver writes for one of its cells survives to the end
of `calculateProbabilities`: later groups are cell-disjoint, the non-frontier
fill skips keys that are already present, and the base fill is guarded. -/
lemma calc_group_value (b : Board) (m : Int) {g : List Constraint}
    (hg : g ∈ constraintGroups b) {k : Key} (hk : k ∈ groupCellsOf g) {v : ℚ}
    (hval : ∀ r : PMap, lookupEntry (processGroup r g) k = some v) :
    lookupEntry (calculateProbabilities b m) k = some v := by
  obtain ⟨l1, l2, hsplit⟩ := List.append_of_mem hg
  have hdisj : (constraintGroups b).Pairwise
      (fun g1 g2 => ∀ k', k' ∈ groupCellsOf g1 → k' ∉ groupCellsOf g2) :=
    (partition_facts (activeConstraints b)).2.2.2
  rw [hsplit] at hdisj
  have hl2 : ∀ g' ∈ l2, k ∉ groupCellsOf g' := by
    have h1 := (List.pairwise_append.mp hdisj).2.1
    have h2 := (List.pairwise_cons.mp h1).1
    intro g' hg'
    exact h2 g' hg' k hk
  unfold calculateProbabilities
  dsimp only
  set R1 : PMap := (finalState b).knownMines.foldl (fun r k2 => setEntry r k2 1)
    ((finalState b).knownSafe.foldl (fun r k2 => setEntry r k2 0) []) with hR1
  set R2 : PMap := (constraintGroups b).foldl processGroup R1 with hR2
  have hres2 : lookupEntry R2 k = some v := by
    rw [hR2, hsplit, List.foldl_append, List.foldl_cons]
    refine @foldl_invariant _ _ (fun r : PMap => lookupEntry r k = some v) _ _ _ ?_ (hval _)
    intro r g' hg' hinv
    rw [processGroup_preserve (hl2 g' hg')]
    exact hinv
  refine fold_guard_preserve ?_
  split_ifs with h3
  · have hknf : k ∉ (unrevealedCells b).filter
        (fun k2 => !((frontierCells b).contains k2) && (lookupEntry R2 k2).isNone) := by
      intro hkNF
      have hcond := (List.mem_filter.mp hkNF).2
      rw [Bool.and_eq_true] at hcond
      have hnone := hcond.2
      rw [hres2] at hnone
      exact Bool.noConfusion hnone
    rw [fold_set_preserve_notmem hknf]
    exact hres2
  · exact hres2

/-- C9: a component of at most 20 cells with no satisfying assignment gets
probability exactly 1/2 on every one of its cells (and the computation is
total, so no error occurs). -/
theorem C9_zero_solution_group_half (b : Board) (m : Int) (g : List Constraint)
    (hg : g ∈ constraintGroups b)
    (hn : 0 < (groupCellsOf g).length ∧ (groupCellsOf g).length ≤ 20)
    (hzero : satMasks (groupCellsOf g) g = []) :
    ∀ k ∈ groupCellsOf g, lookupEntry (calculateProbabilities b m) k = some (1 / 2) := by
  intro k hk
  exact calc_group_value b m hg hk
    (processGroup_zero_half hn (solveConstraints_of_no_sat hn.2 hzero) k hk)

set_option maxRecDepth 400000 in
theorem C9_witness :
    (gZ ∈ constraintGroups bZ ∧
      (0 < (groupCellsOf gZ).length ∧ (groupCellsOf gZ).length ≤ 20) ∧
      satMasks (groupCellsOf gZ) gZ = [] ∧ cellKey 1 1 ∈ groupCellsOf gZ) ∧
    lookupEntry (calculateProbabilities bZ 2) (cellKey 1 1) = some (1 / 2) :=
  ⟨⟨by decide, ⟨by decide, by decide⟩, by decide, by decide⟩,
    C9_zero_solution_group_half bZ 2 gZ (by decide) ⟨by decide, by decide⟩ (by decide)
      (cellKey 1 1) (by decide)⟩

/-- The solver fold collects exactly the satisfying assignments, in mask order,
as long as the 10000-solution cap is never exceeded. -/
lemma solveFold (sat : Nat → Bool) (am : Nat → List Key) :
    ∀ (l : List Nat) (sols : List (List Key)),
      sols.length + (l.filter sat).length ≤ maxSolutions →
      l.foldl (fun sols mask => if maxSolutions ≤ sols.length then sols
        else if sat mask then sols ++ [am mask] else sols) sols
      = sols ++ (l.filter sat).map am := by
  intro l
  induction l with
  | nil =>
    intro sols _
    simp
  | cons mask l ih =>
    intro sols hbound
    rw [List.foldl_cons]
    by_cases hs : sat mask = true
    · have hfc : (mask :: l).filter sat = mask :: l.filter sat := List.filter_cons_of_pos hs
      rw [hfc, List.length_cons] at hbound
      have hlen : ¬(maxSolutions ≤ sols.length) := by omega
      rw [if_neg hlen, if_pos hs]
      have hbound' : (sols ++ [am mask]).length + (l.filter sat).length ≤ maxSolutions := by
        rw [List.length_append, List.length_singleton]
        omega
      rw [ih (sols ++ [am mask]) hbound', hfc, List.map_cons, List.append_assoc]
      rfl
    · have hfc : (mask :: l).filter sat = l.filter sat := List.filter_cons_of_neg hs
      rw [hfc] at hbound
      by_cases hlen : maxSolutions ≤ sols.length
      · rw [if_pos hlen, ih sols hbound, hfc]
      · rw [if_neg hlen, if_neg hs, ih sols hbound, hfc]

lemma solveConstraints_eq_map {cells : List Key} {g : List Constraint}
    (hn : cells.length ≤ 20) (hcap : (satMasks cells g).length ≤ maxSolutions) :
    solveConstraints cells g = (satMasks cells g).map (assignedMines cells) := by
  have hcap2 : ¬(1048576 < 2 ^ cells.length) := by
    rw [not_lt]
    calc 2 ^ cells.length ≤ 2 ^ 20 := Nat.pow_le_pow_right (by norm_num) hn
      _ = 1048576 := by norm_num
  unfold solveConstraints
  dsimp only
  rw [if_neg hcap2]
  have h := solveFold (fun mask => satisfiesAll cells g mask) (assignedMines cells)
    (List.range (2 ^ cells.length)) [] (by simpa [satMasks] using hcap)
  exact h

/-- On a duplicate-free cell array, each solution contains a cell at most once,
so `mineCounts` counts exactly the satisfying masks placing a mine there. -/
lemma mineCountIn_filter {cells : List Key} (hnd : cells.Nodup) (S : List Nat) (k : Key) :
    mineCountIn (S.map (assignedMines cells)) k
      = (S.filter (fun mask => (assignedMines cells mask).contains k)).length := by
  induction S with
  | nil => rfl
  | cons mask S ih =>
    unfold mineCountIn at ih ⊢
    rw [List.map_cons, List.map_cons, List.sum_cons]
    have hcount : (assignedMines cells mask).count k
        = if (assignedMines cells mask).contains k then 1 else 0 := by
      by_cases hmem : k ∈ assignedMines cells mask
      · rw [if_pos (List.elem_iff.mpr hmem)]
        have h1 : 1 ≤ (assignedMines cells mask).count k := List.one_le_count_iff.mpr hmem
        have h2 : (assignedMines cells mask).count k ≤ 1 :=
          le_trans (assignedMines_count_le cells mask k) (count_le_one_of_nodup hnd k)
        omega
      · rw [if_neg (fun hc => hmem (List.elem_iff.mp hc)), List.count_eq_zero_of_not_mem hmem]
    rw [hcount, ih]
    rw [List.filter_cons]
    by_cases hc : (assignedMines cells mask).contains k = true
    · rw [if_pos hc, if_pos hc, List.length_cons]
      omega
    · rw [if_neg hc, if_neg hc]
      omega

lemma fold_setEntry_fun {l : List Key} (hnd : l.Nodup) {k : Key} (hk : k ∈ l)
    (f : Key → ℚ) (r0 : PMap) :
    lookupEntry (l.foldl (fun r k2 => setEntry r k2 (f k2)) r0) k = some (f k) := by
  induction l generalizing r0 with
  | nil => exact absurd hk (List.not_mem_nil k)
  | cons k2 l ih =>
    rw [List.nodup_cons] at hnd
    rw [List.foldl_cons]
    rcases List.mem_cons.mp hk with rfl | hkl
    · refine @foldl_invariant _ _ (fun r : PMap => lookupEntry r k = some (f k)) _ _ _ ?_
        (lookup_setEntry_self _ _ _)
      intro r k3 hk3 hinv
      rw [lookup_setEntry_ne _ _ (fun he => hnd.1 (by rw [he]; exact hk3))]
      exact hinv
    · exact ih hnd.2 hkl _

/-- The exact-solver branch writes, for each cell of the component, the
fraction of satisfying assignments that put a mine on that cell. -/
lemma processGroup_ratio {g : List Constraint}
    (hn : 0 < (groupCellsOf g).length ∧ (groupCellsOf g).length ≤ 20)
    (hS : 1 ≤ (satMasks (groupCellsOf g) g).length ∧
      (satMasks (groupCellsOf g) g).length ≤ maxSolutions) :
    ∀ k ∈ groupCellsOf g, ∀ r,
      lookupEntry (processGroup r g) k
        = some ((((satMasks (groupCellsOf g) g).filter
            (fun mask => (assignedMines (groupCellsOf g) mask).contains k)).length : ℚ)
          / ((satMasks (groupCellsOf g) g).length : ℚ)) := by
  intro k hk r
  have hsolve := solveConstraints_eq_map hn.2 hS.2
  have hne : solveConstraints (groupCellsOf g) g ≠ [] := by
    rw [hsolve]
    intro hnil
    rw [List.map_eq_nil_iff] at hnil
    rw [hnil] at hS
    exact absurd hS.1 (by norm_num)
  unfold processGroup
  dsimp only
  rw [if_pos hn, if_pos hne]
  have hval := fold_setEntry_fun (groupCellsOf_nodup g) hk
    (fun k2 => ((mineCountIn (solveConstraints (groupCellsOf g) g) k2 : ℚ)
      / ((solveConstraints (groupCellsOf g) g).length : ℚ))) r
  rw [hval, hsolve, mineCountIn_filter (groupCellsOf_nodup g), List.length_map]

/-- C2: each cell of an exactly-solved component (at most 20 cells, between 1
and 10000 satisfying assignments) is assigned the fraction of satisfying
assignments that place a mine on it. -/
theorem C2_exact_component_ratio (b : Board) (m : Int) (g : List Constraint)
    (hg : g ∈ constraintGroups b)
    (hn : 0 < (groupCellsOf g).length ∧ (groupCellsOf g).length ≤ 20)
    (hS : 1 ≤ (satMasks (groupCellsOf g) g).length ∧
      (satMasks (groupCellsOf g) g).length ≤ maxSolutions) :
    ∀ k ∈ groupCellsOf g,
      lookupEntry (calculateProbabilities b m) k
        = some ((((satMasks (groupCellsOf g) g).filter
            (fun mask => (assignedMines (groupCellsOf g) mask).contains k)).length : ℚ)
          / ((satMasks (groupCellsOf g) g).length : ℚ)) := by
  intro k hk
  exact calc_group_value b m hg hk (processGroup_ratio hn hS k hk)

set_option maxRecDepth 400000 in
theorem C2_witness :
    (gP ∈ constraintGroups bP ∧
      (0 < (groupCellsOf gP).length ∧ (groupCellsOf gP).length ≤ 20) ∧
      (1 ≤ (satMasks (groupCellsOf gP) gP).length ∧
        (satMasks (groupCellsOf gP) gP).length ≤ maxSolutions) ∧
      cellKey 0 0 ∈ groupCellsOf gP) ∧
    lookupEntry (calculateProbabilities bP 1) (cellKey 0 0)
      = some ((((satMasks (groupCellsOf gP) gP).filter
          (fun mask => (assignedMines (groupCellsOf gP) mask).contains (cellKey 0 0))).length : ℚ)
        / ((satMasks (groupCellsOf gP) gP).length : ℚ)) :=
  ⟨⟨by decide, ⟨by decide, by decide⟩, ⟨by decide, by decide⟩, by decide⟩,
    C2_exact_component_ratio bP 1 gP (by decide) ⟨by decide, by decide⟩
      ⟨by decide, by decide⟩ (cellKey 0 0) (by decide)⟩

end Minesweeper
